import Mathlib

/-!
# Verification of the green-fsm finite state machine library

The repository ships two revisions of the library:

* `Main` — the current ES-module revision (`src/main.js`): a class `Fsm`
  whose constructor `(finals, map, initial)` derives the reachable state set
  and the alphabet from the transition table, a total `follow` with a
  per-state `ANYTHING_ELSE` fallback, and the operators `union`,
  `intersection`, `crawl`, `_connectAll`, `concatenate`, `multiply`, `star`.
* `V1` — the earlier CommonJS revision: a validating constructor
  `fsm(alphabet, states, initial, finals, map)`, a `follow` that throws on a
  symbol that is neither in the alphabet nor convertible to the wildcard,
  `epsilon`, `nothing`, `crawl`, `concatenate`, `multiply`, and the lazy
  `strings()` generator with its liveness analysis.

Modelling conventions used throughout:

* An alphabet symbol is a `Symb α`: either an ordinary symbol `Symb.sym a`
  (a string key in JavaScript) or the distinguished wildcard
  `Symb.anythingElse` (the exported `ANYTHING_ELSE` / `anythingElse` Symbol).
* The absorbing oblivion sentinel (`OBLIVION_STATE` / `oblivionState`) is
  `Option.none`; a genuine state `s` is `some s`.  The sentinel is a fresh
  Symbol in JavaScript, so it is distinct from every state, is never final
  and never occurs inside a transition table.
* A JavaScript object used as a dictionary becomes an association list read
  by `assocGet`; the first binding for a key wins, which agrees with
  JavaScript insertion-order semantics (re-assigning an existing key keeps
  its position, and the sources only ever write one value per key).
* JavaScript compares crawled superstates with
  `JSON.stringify(x) === JSON.stringify(next)`; for the superstate shapes
  the library builds (lists of pairs of machine data and state names) this
  is structural equality, modelled by decidable equality on the Lean side.
* `crawl` names its states `String(0), String(1), …`.  The `Main` model
  keeps the numbers themselves as state names; the `V1` model, whose
  constructor stores the state list explicitly, uses `Nat.repr` so that the
  printed names are kept.
* Loops whose termination depends on the caller (the crawl worklist, the
  constructor scan) take an explicit fuel argument and return `none` when
  the fuel runs out; a `some` result models a terminating JavaScript run.
-/

inductive Symb (α : Type) where
  | sym : α → Symb α
  | anythingElse : Symb α
deriving DecidableEq, Repr

/-- Read a JavaScript-object-as-dictionary: first binding for the key. -/
def assocGet {κ β : Type} [DecidableEq κ] : List (κ × β) → κ → Option β
  | [], _ => none
  | e :: rest, key => if e.1 = key then some e.2 else assocGet rest key

/-- `Array.prototype.findIndex` for an equality test: index of the first
occurrence of `t`. -/
def firstIdx {T : Type} [DecidableEq T] : List T → T → Option Nat
  | [], _ => none
  | x :: xs, t => if x = t then some 0 else (firstIdx xs t).map (· + 1)

/-- Overwrite the first binding for `key`, else append (JavaScript object
assignment). -/
def assocSet {κ β : Type} [DecidableEq κ] : List (κ × β) → κ → β → List (κ × β)
  | [], key, v => [(key, v)]
  | e :: rest, key, v => if e.1 = key then (key, v) :: rest else e :: assocSet rest key v

/-- `unifyAlphabets`, identical in both revisions: union of the alphabets in
first-occurrence order, deduplicated. -/
def unifyAlphabets {α : Type} [DecidableEq α] (alphabets : List (List (Symb α))) :
    List (Symb α) :=
  alphabets.foldl
    (fun unified alphabet =>
      alphabet.foldl (fun u symbol => if symbol ∈ u then u else u ++ [symbol]) unified)
    []

/-- The mutable state of the `crawl` worklist loop, identical in both
revisions (states are numbered; JavaScript uses `String(i)` as the name of
state `i`). -/
structure CrawlAcc (α T : Type) where
  lookup : List T
  finals : List Nat
  map : List (Nat × List (Symb α × Nat))
deriving Repr, DecidableEq

/-- The inner `alphabet.forEach` of `crawl`: build the transition row of the
superstate `blah`, appending newly discovered superstates to `lookup`.
`firstIdx` models `lookup.findIndex(x => JSON.stringify(x) ===
JSON.stringify(next))`. -/
def crawlRow {α T : Type} [DecidableEq T] (flw : T → Symb α → Option T) (blah : T) :
    List (Symb α) → List (Symb α × Nat) → List T → List (Symb α × Nat) × List T
  | [], row, lk => (row, lk)
  | c :: rest, row, lk =>
    match flw blah c with
    | none => crawlRow flw blah rest row lk
    | some next =>
      match firstIdx lk next with
      | some j => crawlRow flw blah rest (row ++ [(c, j)]) lk
      | none => crawlRow flw blah rest (row ++ [(c, lk.length)]) (lk ++ [next])

/-- The `crawl` worklist loop, identical in both revisions: process
superstate ids in order, recording finality and the transition row of each,
until the worklist is exhausted. -/
def crawlGo {α T : Type} [DecidableEq T] (alphabet : List (Symb α)) (isFinal : T → Bool)
    (flw : T → Symb α → Option T) :
    Nat → List T → List Nat → List (Nat × List (Symb α × Nat)) → Nat → Option (CrawlAcc α T)
  | 0, _, _, _, _ => none
  | fuel + 1, lookup, finals, map, state =>
    if h : state < lookup.length then
      let blah := lookup.get ⟨state, h⟩
      let finals2 := if isFinal blah then finals ++ [state] else finals
      let pr := crawlRow flw blah alphabet [] lookup
      crawlGo alphabet isFinal flw fuel pr.2 finals2 (map ++ [(state, pr.1)]) (state + 1)
    else some ⟨lookup, finals, map⟩

namespace Main

variable {α σ : Type} [DecidableEq α] [DecidableEq σ]

/-- The data of a constructed `Fsm` object (src/main.js).  `alphabet` and
`states` are the fields the constructor derived from `map` and `initial`. -/
structure Fsm (α σ : Type) where
  alphabet : List (Symb α)
  states : List σ
  finals : List σ
  map : List (σ × List (Symb α × σ))
  initial : σ
deriving DecidableEq, Repr

/-- `hasFinalState` (src/main.js): `finals.includes(state)`; the oblivion
sentinel is never final. -/
def Fsm.hasFinalState (f : Fsm α σ) (state : Option σ) : Bool :=
  match state with
  | some s => decide (s ∈ f.finals)
  | none => false

/-- `follow` (src/main.js): direct table lookup, then the per-state
`ANYTHING_ELSE` fallback, else oblivion; oblivion is absorbing. -/
def Fsm.follow (f : Fsm α σ) (state : Option σ) (symbol : Symb α) : Option σ :=
  match state with
  | none => none
  | some s =>
    match assocGet f.map s with
    | none => none
    | some row =>
      match assocGet row symbol with
      | some next => some next
      | none => assocGet row Symb.anythingElse

/-- The state reached from `state` after consuming `input` (the loop inside
`accepts`). -/
def Fsm.followStar (f : Fsm α σ) (state : Option σ) : List (Symb α) → Option σ
  | [] => state
  | c :: rest => f.followStar (f.follow state c) rest

/-- `accepts` (src/main.js): fold `follow` from the initial state, then test
finality. -/
def Fsm.accepts (f : Fsm α σ) (input : List (Symb α)) : Bool :=
  f.hasFinalState (f.followStar (some f.initial) input)

/-- One `forEach` body of the constructor scan: push unseen symbols of a row
onto the alphabet and unseen targets onto the state list. -/
def scanRow (pr : List (Symb α) × List σ) (e : Symb α × σ) : List (Symb α) × List σ :=
  (if e.1 ∈ pr.1 then pr.1 else pr.1 ++ [e.1],
   if e.2 ∈ pr.2 then pr.2 else pr.2 ++ [e.2])

/-- The constructor's worklist scan (src/main.js): starting from
`[initial]`, follow every recorded transition of every discovered state,
collecting the alphabet and the state list in discovery order. -/
def scanGo (map : List (σ × List (Symb α × σ))) :
    Nat → List (Symb α) → List σ → Nat → Option (List (Symb α) × List σ)
  | 0, _, _, _ => none
  | fuel + 1, alph, sts, i =>
    if h : i < sts.length then
      let state := sts.get ⟨i, h⟩
      let pr :=
        match assocGet map state with
        | none => (alph, sts)
        | some row => row.foldl scanRow (alph, sts)
      scanGo map fuel pr.1 pr.2 (i + 1)
    else some (alph, sts)

/-- `new Fsm(finals, map, initial)` (src/main.js): derive the alphabet and
state list, then package the object.  The constructor always terminates in
JavaScript (the scan is bounded by the table size); the fuel models that. -/
def mkFsm (finals : List σ) (map : List (σ × List (Symb α × σ))) (initial : σ)
    (fuel : Nat) : Option (Fsm α σ) :=
  (scanGo map fuel [] [initial] 0).map fun pr =>
    ⟨pr.1, pr.2, finals, map, initial⟩

/-- `Fsm.NOTHING = new Fsm([], {}, 'A')` with the single state renamed 0. -/
def NOTHING : Fsm α Nat := ⟨[], [0], [], [], 0⟩

/-- `Fsm.EPSILON = new Fsm(['A'], {}, 'A')` with the single state renamed 0. -/
def EPSILON : Fsm α Nat := ⟨[], [0], [0], [], 0⟩

/-- `crawl` (src/main.js): run the worklist loop, then package the result
with `new Fsm(finals, map, '0')`. -/
def crawl {T : Type} [DecidableEq T] (alphabet : List (Symb α)) (initial : T)
    (isFinal : T → Bool) (flw : T → Symb α → Option T) (fuel : Nat) : Option (Fsm α Nat) :=
  (crawlGo alphabet isFinal flw fuel [initial] [] [] 0).bind fun acc =>
    mkFsm acc.finals acc.map 0 fuel

/-- The dedicated `follow` of `parallel` (src/main.js): advance every pair,
drop the pairs that fell into oblivion, and go to oblivion when none are
left. -/
def parallelFollow (state : List (Fsm α σ × σ)) (symbol : Symb α) :
    Option (List (Fsm α σ × σ)) :=
  let mapped := state.map fun p => (p.1, p.1.follow (some p.2) symbol)
  let next := mapped.filterMap fun p => p.2.map fun s => (p.1, s)
  if next = [] then none else some next

/-- `parallel` (src/main.js): product construction over (machine, substate)
pairs, crawled over the unified alphabet. -/
def parallel (fsms : List (Fsm α σ)) (isFinal : List (Fsm α σ × σ) → Bool)
    (fuel : Nat) : Option (Fsm α Nat) :=
  crawl (unifyAlphabets (fsms.map Fsm.alphabet)) (fsms.map fun f => (f, f.initial))
    isFinal parallelFollow fuel

/-- `union` (src/main.js): final when some pair's machine holds its substate
final. -/
def union (fsms : List (Fsm α σ)) (fuel : Nat) : Option (Fsm α Nat) :=
  parallel fsms (fun state => state.any fun pair => pair.1.hasFinalState (some pair.2)) fuel

/-- `intersection` (src/main.js): final when every input machine is
represented in the pair list by a final substate. -/
def intersection (fsms : List (Fsm α σ)) (fuel : Nat) : Option (Fsm α Nat) :=
  parallel fsms
    (fun state =>
      fsms.all fun f =>
        state.any fun pair => decide (pair.1 = f) && pair.1.hasFinalState (some pair.2))
    fuel

/-- The body of `_connectAll`'s while loop; the fuel is the machine count,
which bounds the loop. -/
def connectAllGo (fsms : List (Fsm α σ)) :
    Nat → Nat → Option σ → List (Nat × Option σ) → List (Nat × Option σ)
  | 0, _, _, acc => acc
  | fuel + 1, i, substate, acc =>
    match fsms.get? i, fsms.get? (i + 1) with
    | some fi, some fi1 =>
      if i < fsms.length - 1 && fi.hasFinalState substate then
        connectAllGo fsms fuel (i + 1) (some fi1.initial) (acc ++ [(i + 1, some fi1.initial)])
      else acc
    | _, _ => acc

/-- `_connectAll` (src/main.js): the pair `(i, substate)` plus, while the
substate is final, the initial pair of each following machine. -/
def connectAll (fsms : List (Fsm α σ)) (i : Nat) (substate : Option σ) :
    List (Nat × Option σ) :=
  connectAllGo fsms fsms.length i substate [(i, substate)]

/-- The dedicated `follow` of `concatenate` (src/main.js).  Note the
comparison `x.i === i` in the dedup test: it compares an existing pair's
machine index with the index of the *source* pair being expanded, exactly as
the JavaScript reads. -/
def concatFollow (fsms : List (Fsm α σ)) (current : List (Nat × Option σ))
    (symbol : Symb α) : Option (List (Nat × Option σ)) :=
  let next :=
    current.foldl
      (fun next pr =>
        let stepped :=
          match fsms.get? pr.1 with
          | some fi => fi.follow pr.2 symbol
          | none => none
        (connectAll fsms pr.1 stepped).foldl
          (fun next ns =>
            if next.any fun x => decide (x.1 = pr.1) && decide (x.2 = ns.2) then next
            else next ++ [ns])
          next)
      []
  let next2 := next.filter fun pr => pr.2.isSome
  if next2 = [] then none else some next2

/-- The finality test of `concatenate` (src/main.js): some pair sits in the
last machine at a final substate. -/
def concatIsFinal (fsms : List (Fsm α σ)) (state : List (Nat × Option σ)) : Bool :=
  state.any fun pr =>
    decide (pr.1 = fsms.length - 1) &&
      (match fsms.get? pr.1 with
       | some fi => fi.hasFinalState pr.2
       | none => false)

/-- `concatenate` (src/main.js).  JavaScript crashes on an empty list
(`fsms[0].initial` of `undefined`); the model returns `none` there. -/
def concatenate (fsms : List (Fsm α σ)) (fuel : Nat) : Option (Fsm α Nat) :=
  match fsms with
  | [] => none
  | f0 :: _ =>
    crawl (unifyAlphabets (fsms.map Fsm.alphabet))
      (connectAll fsms 0 (some f0.initial))
      (concatIsFinal fsms) (concatFollow fsms) fuel

/-- `multiply` (src/main.js): zero copies give the constant `Fsm.EPSILON`;
otherwise concatenate `multiplier` copies. -/
def multiply (x : Fsm α σ) (multiplier : Nat) (fuel : Nat) : Option (Fsm α Nat) :=
  if multiplier = 0 then some EPSILON
  else concatenate (List.replicate multiplier x) fuel

/-- The dedicated `follow` of `star` (src/main.js): direct successors of
every substate, plus — from final substates — the successor of the original
initial state; drop oblivion, empty means oblivion.  (The JavaScript calls
`fsm.follow(initial, symbol)` with `initial` the one-element array
`[fsm.initial]`; used as an object key that array coerces to the same string
as `fsm.initial` itself, so it reads the initial state's row.) -/
def starFollow (f : Fsm α σ) (state : List σ) (symbol : Symb α) : Option (List σ) :=
  let next :=
    state.foldl
      (fun next substate =>
        let n1 := f.follow (some substate) symbol
        let next := if n1 ∈ next then next else next ++ [n1]
        if f.hasFinalState (some substate) then
          let n2 := f.follow (some f.initial) symbol
          if n2 ∈ next then next else next ++ [n2]
        else next)
      []
  let next2 := next.filterMap id
  if next2 = [] then none else some next2

/-- `star` (src/main.js): crawl the closure construction, then union it with
`Fsm.EPSILON`. -/
def star (f : Fsm α σ) (fuel : Nat) : Option (Fsm α Nat) :=
  (crawl f.alphabet [f.initial] (fun state => state.any fun s => f.hasFinalState (some s))
      (starFollow f) fuel).bind
    fun crawled => union [EPSILON, crawled] fuel

end Main

namespace V1

variable {α σ : Type} [DecidableEq α] [DecidableEq σ]

/-- The machine object built by `fsm(alphabet, states, initial, finals,
map)` in the earlier CommonJS revision: all five fields are caller
supplied. -/
structure Fsm (α σ : Type) where
  alphabet : List (Symb α)
  states : List σ
  initial : σ
  finals : List σ
  map : List (σ × List (Symb α × σ))
deriving DecidableEq, Repr

/-- The validating constructor `fsm` of the earlier revision.  The checks
run in source order: duplicate alphabet symbol, initial state membership,
final state membership, transition targets.  The target check iterates
`Object.keys(map[state])`, which skips Symbol keys, so a transition keyed by
the `anythingElse` Symbol is *not* validated. -/
def fsm (alphabet : List (Symb α)) (states : List σ) (initial : σ) (finals : List σ)
    (map : List (σ × List (Symb α × σ))) : Except String (Fsm α σ) :=
  if ¬ alphabet.Nodup then .error "Duplicate alphabet symbol"
  else if initial ∉ states then .error "Initial state must be one of the states"
  else if ¬ (finals.all fun fynal => decide (fynal ∈ states)) then
    .error "Final state must be one of the states"
  else if ¬ (map.all fun e =>
      e.2.all fun tr => decide (tr.1 = Symb.anythingElse) || decide (tr.2 ∈ states)) then
    .error "Transition leads to a value which is not a state"
  else .ok ⟨alphabet, states, initial, finals, map⟩

/-- `hasFinalState`: `finals.includes(state)`; the oblivion sentinel is
never final. -/
def Fsm.hasFinalState (f : Fsm α σ) (state : Option σ) : Bool :=
  match state with
  | some s => decide (s ∈ f.finals)
  | none => false

/-- The table lookup performed by the earlier revision's `follow` after the
wildcard conversion: `state in map && symbol in map[state] ?
map[state][symbol] : oblivionState`.  There is no per-row wildcard fallback
in this revision. -/
def Fsm.followIn (f : Fsm α σ) (state : Option σ) (symbol : Symb α) : Option σ :=
  match state with
  | none => none
  | some s =>
    match assocGet f.map s with
    | none => none
    | some row => assocGet row symbol

/-- `follow` of the earlier revision: a symbol outside the alphabet is
converted to the wildcard when the wildcard is declared, and otherwise the
call throws. -/
def Fsm.follow (f : Fsm α σ) (state : Option σ) (symbol : Symb α) :
    Except String (Option σ) :=
  if symbol ∈ f.alphabet then .ok (f.followIn state symbol)
  else if Symb.anythingElse ∈ f.alphabet then .ok (f.followIn state Symb.anythingElse)
  else .error "Unrecognised symbol"

/-- `accepts` of the earlier revision:
`hasFinalState(input.reduce(follow, initial))`; an exception from `follow`
propagates out of the call. -/
def Fsm.accepts (f : Fsm α σ) (input : List (Symb α)) : Except String Bool :=
  (input.foldlM f.follow (some f.initial)).map f.hasFinalState

/-- `nothing(alphabet)`: one non-final state with every alphabet symbol
looping on it. -/
def nothing (alphabet : List (Symb α)) : Except String (Fsm α String) :=
  fsm alphabet ["A"] "A" [] [("A", alphabet.map fun symbol => (symbol, "A"))]

/-- `epsilon(alphabet)`: one final state, empty transition table. -/
def epsilon (alphabet : List (Symb α)) : Except String (Fsm α String) :=
  fsm alphabet ["A"] "A" ["A"] []

/-- `crawl` of the earlier revision: the shared worklist loop, then
`fsm(alphabet, Object.keys(lookup), '0', finals, map)` — states named by
their decimal ids in discovery order, validated by the constructor. -/
def crawl {T : Type} [DecidableEq T] (alphabet : List (Symb α)) (initial : T)
    (isFinal : T → Bool) (flw : T → Symb α → Option T) (fuel : Nat) :
    Option (Except String (Fsm α String)) :=
  (crawlGo alphabet isFinal flw fuel [initial] [] [] 0).map fun acc =>
    fsm alphabet ((List.range acc.lookup.length).map Nat.repr) "0"
      (acc.finals.map Nat.repr)
      (acc.map.map fun e => (Nat.repr e.1, e.2.map fun tr => (tr.1, Nat.repr tr.2)))

/-- The body of `connectAll`'s while loop; the fuel is the machine count,
which bounds the loop. -/
def connectAllGo (fsms : List (Fsm α σ)) :
    Nat → Nat → Option σ → List (Nat × Option σ) → List (Nat × Option σ)
  | 0, _, _, acc => acc
  | fuel + 1, i, substate, acc =>
    match fsms.get? i, fsms.get? (i + 1) with
    | some fi, some fi1 =>
      if i < fsms.length - 1 && fi.hasFinalState substate then
        connectAllGo fsms fuel (i + 1) (some fi1.initial) (acc ++ [(i + 1, some fi1.initial)])
      else acc
    | _, _ => acc

/-- `connectAll` of the earlier revision: the pair `(i, substate)` plus,
while the substate is final, the initial pair of each following machine. -/
def connectAll (fsms : List (Fsm α σ)) (i : Nat) (substate : Option σ) :
    List (Nat × Option σ) :=
  connectAllGo fsms fsms.length i substate [(i, substate)]

/-- The dedicated `follow` of the earlier revision's `concatenate`: pairs
whose machine alphabet lacks the symbol are skipped, others are advanced
through `connectAll`.  As in the current revision, the dedup test compares
`x.i === i` with the *source* pair's index. -/
def concatFollow (fsms : List (Fsm α String)) (current : List (Nat × Option String))
    (symbol : Symb α) : Option (List (Nat × Option String)) :=
  let next :=
    current.foldl
      (fun next pr =>
        match fsms.get? pr.1 with
        | none => next
        | some fi =>
          if symbol ∈ fi.alphabet then
            (connectAll fsms pr.1 (fi.followIn pr.2 symbol)).foldl
              (fun next ns =>
                if next.any fun x => decide (x.1 = pr.1) && decide (x.2 = ns.2) then next
                else next ++ [ns])
              next
          else next)
      []
  let next2 := next.filter fun pr => pr.2.isSome
  if next2 = [] then none else some next2

/-- The finality test of the earlier revision's `concatenate`. -/
def concatIsFinal (fsms : List (Fsm α String)) (state : List (Nat × Option String)) : Bool :=
  state.any fun pr =>
    decide (pr.1 = fsms.length - 1) &&
      (match fsms.get? pr.1 with
       | some fi => fi.hasFinalState pr.2
       | none => false)

/-- `concatenate` of the earlier revision: an `epsilon` machine over the
unified alphabet is prepended to the inputs before crawling. -/
def concatenate (fsms0 : List (Fsm α String)) (fuel : Nat) :
    Option (Except String (Fsm α String)) :=
  let alphabet := unifyAlphabets (fsms0.map Fsm.alphabet)
  match epsilon alphabet with
  | .error e => some (.error e)
  | .ok eps =>
    let fsms := eps :: fsms0
    crawl alphabet (connectAll fsms 0 (some eps.initial)) (concatIsFinal fsms)
      (concatFollow fsms) fuel

/-- `multiply` of the earlier revision: zero copies give
`epsilon(x.alphabet)`, otherwise `multiplier` copies are concatenated. -/
def multiply (x : Fsm α String) (multiplier : Nat) (fuel : Nat) :
    Option (Except String (Fsm α String)) :=
  if multiplier = 0 then some (epsilon x.alphabet)
  else concatenate (List.replicate multiplier x) fuel

/-- One assignment `reverseMap[next][state] = true` of `_getLiveStates`. -/
def rmAdd (rm : List (Option σ × List σ)) (next : Option σ) (state : σ) :
    List (Option σ × List σ) :=
  match assocGet rm next with
  | none => rm ++ [(next, [state])]
  | some inner => assocSet rm next (if state ∈ inner then inner else inner ++ [state])

/-- The reverse adjacency map of `_getLiveStates`: for every state and
alphabet symbol, record `follow(state, symbol) ← state`. -/
def reverseMap (f : Fsm α σ) : List (Option σ × List σ) :=
  f.states.foldl
    (fun rm state =>
      f.alphabet.foldl (fun rm symbol => rmAdd rm (f.followIn (some state) symbol) state) rm)
    []

/-- The recursive `scan` of `_getLiveStates`: mark the state live, then scan
every unmarked predecessor.  Each nested call marks a previously unmarked
state drawn from the state list, so a fuel of `states.length + 1` always
suffices for the recursion depth. -/
def scanLive (rm : List (Option σ × List σ)) : Nat → List σ → σ → List σ
  | 0, acc, _ => acc
  | fuel + 1, acc, q =>
    let acc2 := if q ∈ acc then acc else acc ++ [q]
    ((assocGet rm (some q)).getD []).foldl
      (fun a p => if p ∈ a then a else scanLive rm fuel a p) acc2

/-- `_getLiveStates`: flood the reverse map backward from every final
state. -/
def getLiveStates (f : Fsm α σ) : List σ :=
  f.finals.foldl (fun acc q => scanLive (reverseMap f) (f.states.length + 1) acc q) []

/-- `_hasLiveState`; the oblivion sentinel is never live. -/
def hasLiveState (live : List σ) (state : Option σ) : Bool :=
  match state with
  | some q => decide (q ∈ live)
  | none => false

/-- The `alphabet.forEach` inside `strings`'s `next`: enqueue the extension
of the current entry by each symbol whose successor is live. -/
def expandEntry (f : Fsm α σ) (live : List σ) (entry : List (Symb α) × σ) :
    List (List (Symb α) × σ) :=
  f.alphabet.foldl
    (fun acc symbol =>
      match f.followIn (some entry.2) symbol with
      | some nstate =>
        if nstate ∈ live then acc ++ [(entry.1 ++ [symbol], nstate)] else acc
      | none => acc)
    []

/-- One call of the generator's `next`: starting at cursor `i`, scan
frontier entries — enqueueing live successors of each — until a final entry
is found (yield its string) or the frontier is exhausted (done).  The fuel
models the unbounded `while (true)`; `none` means the call would not have
returned within `fuel` iterations. -/
def nextGo (f : Fsm α σ) (live : List σ) :
    Nat → List (List (Symb α) × σ) → Nat →
      Option (Option (List (Symb α)) × List (List (Symb α) × σ) × Nat)
  | 0, _, _ => none
  | fuel + 1, frontier, i =>
    if h : i < frontier.length then
      let e := frontier.get ⟨i, h⟩
      let frontier2 := frontier ++ expandEntry f live e
      if f.hasFinalState (some e.2) then some (some e.1, frontier2, i + 1)
      else nextGo f live fuel frontier2 (i + 1)
    else some (none, frontier, i)

/-- Drive the generator for `calls` invocations of `next`, collecting the
yielded strings; the Bool records whether `done` was reached. -/
def genRun (f : Fsm α σ) (live : List σ) (innerFuel : Nat) :
    Nat → List (List (Symb α) × σ) → Nat → Option (List (List (Symb α)) × Bool)
  | 0, _, _ => some ([], false)
  | calls + 1, frontier, i =>
    match nextGo f live innerFuel frontier i with
    | none => none
    | some (none, _, _) => some ([], true)
    | some (some v, frontier2, i2) =>
      (genRun f live innerFuel calls frontier2 i2).map fun pr => (v :: pr.1, pr.2)

/-- `strings()` driven for `calls` steps from its initial state: frontier
`[([], initial)]`, cursor at the start. -/
def strings (f : Fsm α σ) (innerFuel calls : Nat) :
    Option (List (List (Symb α)) × Bool) :=
  genRun f (getLiveStates f) innerFuel calls [([], f.initial)] 0

end V1

/-! ## Verification-side definitions -/

/-- The run of an abstract successor system on an input, with the oblivion
sentinel absorbing: the language `crawl` is asked to realize. -/
def absRun {α T : Type} (flw : T → Symb α → Option T) : Option T → List (Symb α) → Option T
  | t, [] => t
  | t, c :: rest => absRun flw (t.bind fun x => flw x c) rest

/-- What a completed `crawl` worklist state satisfies: the discovered
superstates are pairwise distinct, superstate 0 is the initial one, row `i`
holds exactly the non-oblivion successors of superstate `i` over the crawl
alphabet (pointing at the superstate structurally equal to the successor),
and the finals are exactly the ids of the final superstates. -/
structure GoodAcc {α T : Type} [DecidableEq α] (alphabet : List (Symb α)) (isFinal : T → Bool)
    (flw : T → Symb α → Option T) (init : T) (acc : CrawlAcc α T) : Prop where
  len : acc.map.length = acc.lookup.length
  first : acc.lookup.get? 0 = some init
  nodup : acc.lookup.Nodup
  keys : ∀ k e, acc.map.get? k = some e → e.1 = k
  row_some : ∀ i row c j, acc.map.get? i = some (i, row) → assocGet row c = some j →
      ∃ ti tj, acc.lookup.get? i = some ti ∧ acc.lookup.get? j = some tj ∧ flw ti c = some tj
  row_mem : ∀ i row c, acc.map.get? i = some (i, row) → c ∈ alphabet →
      ∀ ti t, acc.lookup.get? i = some ti → flw ti c = some t →
      ∃ j, assocGet row c = some j
  fin : ∀ i, i ∈ acc.finals ↔ ∃ ti, acc.lookup.get? i = some ti ∧ isFinal ti = true
  row_bound : ∀ em ∈ acc.map, ∀ p ∈ em.2, p.2 < acc.lookup.length

/-- The invariant of the `crawl` worklist loop before processing index
`state`. -/
structure LoopInv {α T : Type} [DecidableEq α] (alphabet : List (Symb α)) (isFinal : T → Bool)
    (flw : T → Symb α → Option T) (init : T) (lookup : List T) (finals : List Nat)
    (map : List (Nat × List (Symb α × Nat))) (state : Nat) : Prop where
  hstate : state ≤ lookup.length
  len : map.length = state
  first : lookup.get? 0 = some init
  nodup : lookup.Nodup
  keys : ∀ k e, map.get? k = some e → e.1 = k
  row_some : ∀ i row c j, map.get? i = some (i, row) → assocGet row c = some j →
      ∃ ti tj, lookup.get? i = some ti ∧ lookup.get? j = some tj ∧ flw ti c = some tj
  row_mem : ∀ i row c, map.get? i = some (i, row) → c ∈ alphabet →
      ∀ ti t, lookup.get? i = some ti → flw ti c = some t →
      ∃ j, assocGet row c = some j
  fin : ∀ i, i ∈ finals ↔ i < state ∧ ∃ ti, lookup.get? i = some ti ∧ isFinal ti = true
  row_bound : ∀ em ∈ map, ∀ p ∈ em.2, p.2 < lookup.length

/-- The surviving (machine, substate) pairs of the product construction
after consuming `s`: machine `f` is represented exactly when its own run on
`s` has not fallen into oblivion. -/
def Main.runPairs {α σ : Type} [DecidableEq α] [DecidableEq σ]
    (Fs : List (Main.Fsm α σ)) (s : List (Symb α)) : List (Main.Fsm α σ × σ) :=
  Fs.filterMap fun f => (f.followStar (some f.initial) s).map fun t => (f, t)

/-- Example machine: `new Fsm(['0'], {i: {a: '0'}}, 'i')` — accepts exactly
the string "a"; its accepting state is named "0". -/
def exA : Main.Fsm Char String :=
  ⟨[Symb.sym 'a'], ["i", "0"], ["0"], [("i", [(Symb.sym 'a', "0")])], "i"⟩

/-- Example machine: `new Fsm(['f'], {0: {b: 'f'}}, '0')` — accepts exactly
the string "b"; its initial state is named "0". -/
def exB : Main.Fsm Char String :=
  ⟨[Symb.sym 'b'], ["0", "f"], ["f"], [("0", [(Symb.sym 'b', "f")])], "0"⟩

namespace V1

variable {α σ : Type} [DecidableEq α] [DecidableEq σ]

/-- The pure run of the transition table on a string whose symbols need no
wildcard conversion (the generator only ever feeds alphabet symbols). -/
def runP (f : Fsm α σ) (st : Option σ) (u : List (Symb α)) : Option σ :=
  u.foldl f.followIn st

/-- Pure acceptance of a string over the alphabet. -/
def acceptsP (f : Fsm α σ) (u : List (Symb α)) : Bool :=
  f.hasFinalState (runP f (some f.initial) u)

/-- The generator's frontier after `n` iterations of its scanning loop:
each iteration processes the entry under the cursor (appending its live
expansions) and advances the cursor, so after `n` iterations the frontier
is determined by `n` alone. -/
def bfs (f : Fsm α σ) (live : List σ) : Nat → List (List (Symb α) × σ)
  | 0 => [([], f.initial)]
  | n + 1 =>
    let fr := bfs f live n
    if h : n < fr.length then fr ++ expandEntry f live (fr.get ⟨n, h⟩) else fr

/-- Level `d` of the breadth-first exploration: the entries whose strings
have length `d`. -/
def level (f : Fsm α σ) (live : List σ) : Nat → List (List (Symb α) × σ)
  | 0 => [([], f.initial)]
  | d + 1 => (level f live d).flatMap (expandEntry f live)

/-- The concatenation of the levels below `d`: the frontier at the moments
when a level has just been fully processed. -/
def concatLevels (f : Fsm α σ) (live : List σ) : Nat → List (List (Symb α) × σ)
  | 0 => []
  | d + 1 => concatLevels f live d ++ level f live d

/-- The iteration at which the processing of level `d` starts. -/
def levelStart (f : Fsm α σ) (live : List σ) (d : Nat) : Nat :=
  (concatLevels f live d).length

/-- The per-symbol step of `expandEntry`, as a partial map: the enqueued
entry for one alphabet symbol, if its successor is live. -/
def expandF (f : Fsm α σ) (live : List σ) (entry : List (Symb α) × σ) (symbol : Symb α) :
    Option (List (Symb α) × σ) :=
  match f.followIn (some entry.2) symbol with
  | some nstate => if nstate ∈ live then some (entry.1 ++ [symbol], nstate) else none
  | none => none

/-- The strings yielded while the cursor moves over iterations `[k, n)`. -/
def bfsYields (f : Fsm α σ) (live : List σ) (k n : Nat) : List (List (Symb α)) :=
  (List.range' k (n - k)).filterMap fun m =>
    ((bfs f live m).get? m).bind fun e =>
      if f.hasFinalState (some e.2) then some e.1 else none

end V1

/-- Forward reachability of a final state through alphabet transitions: the
property the liveness scan is meant to compute. -/
inductive V1.Reaches {α σ : Type} [DecidableEq α] [DecidableEq σ] (f : V1.Fsm α σ) : σ → Prop
  | fin {q : σ} : q ∈ f.finals → V1.Reaches f q
  | step {q q2 : σ} {c : Symb α} : c ∈ f.alphabet → f.followIn (some q) c = some q2 →
      V1.Reaches f q2 → V1.Reaches f q

/-- Strict precedence of symbols in the alphabet enumeration order. -/
def symLt {α : Type} [DecidableEq α] (alphabet : List (Symb α)) (c1 c2 : Symb α) : Prop :=
  ∃ i1 i2, firstIdx alphabet c1 = some i1 ∧ firstIdx alphabet c2 = some i2 ∧ i1 < i2

/-- Lexicographic precedence by alphabet enumeration order (compared
position by position; used on strings of equal length). -/
inductive lexLt {α : Type} [DecidableEq α] (alphabet : List (Symb α)) :
    List (Symb α) → List (Symb α) → Prop
  | head {c1 c2 : Symb α} {t1 t2 : List (Symb α)} :
      symLt alphabet c1 c2 → lexLt alphabet (c1 :: t1) (c2 :: t2)
  | tail {c : Symb α} {t1 t2 : List (Symb α)} :
      lexLt alphabet t1 t2 → lexLt alphabet (c :: t1) (c :: t2)

/-- Shortlex: strictly shorter, or of the same length and lexicographically
earlier in alphabet enumeration order. -/
def shortlexLt {α : Type} [DecidableEq α] (alphabet : List (Symb α))
    (u v : List (Symb α)) : Prop :=
  u.length < v.length ∨ (u.length = v.length ∧ lexLt alphabet u v)

/-- Example abstract successor function for a two-superstate crawl: 0 steps
to 1 on the symbol a, everything else is oblivion. -/
def exFlw : Nat → Symb Char → Option Nat := fun t c =>
  if t = 0 ∧ c = Symb.sym 'a' then some 1 else none

/-- Example finality test: superstate 1 is final. -/
def exIsFinal : Nat → Bool := fun t => decide (t = 1)

/-- The worklist state the crawl loop reaches on `exFlw`. -/
def exAcc : CrawlAcc Char Nat := ⟨[0, 1], [1], [(0, [(Symb.sym 'a', 1)]), (1, [])]⟩

/-! ## Theorems -/

theorem bool_eq_of_iff {a b : Bool} (h : a = true ↔ b = true) : a = b := by
  cases a <;> cases b <;> simp_all

section Helpers

variable {α σ κ β T : Type} [DecidableEq α] [DecidableEq σ] [DecidableEq κ] [DecidableEq T]

theorem assocGet_append_some {r1 r2 : List (κ × β)} {key : κ} {v : β}
    (h : assocGet r1 key = some v) : assocGet (r1 ++ r2) key = some v := by
  induction r1 with
  | nil => simp [assocGet] at h
  | cons e rest ih =>
    simp only [assocGet, List.cons_append] at h ⊢
    split at h
    · simpa [*] using h
    · simp [*, ih h]

theorem assocGet_append_none {r1 r2 : List (κ × β)} {key : κ}
    (h : assocGet r1 key = none) : assocGet (r1 ++ r2) key = assocGet r2 key := by
  induction r1 with
  | nil => simp [assocGet]
  | cons e rest ih =>
    simp only [assocGet, List.cons_append] at h ⊢
    split at h
    · exact absurd h (by simp)
    · simp [*, ih h]

theorem firstIdx_some {lk : List T} {t : T} :
    ∀ {j : Nat}, firstIdx lk t = some j → lk.get? j = some t := by
  induction lk with
  | nil => intro j h; simp [firstIdx] at h
  | cons x xs ih =>
    intro j h
    simp only [firstIdx] at h
    split at h
    · cases h; simp [*]
    · match hj : firstIdx xs t with
      | none => rw [hj] at h; simp at h
      | some j0 =>
        rw [hj] at h
        simp only [Option.map_some'] at h
        cases h
        simpa using ih hj

theorem firstIdx_none {lk : List T} {t : T} (h : firstIdx lk t = none) : t ∉ lk := by
  induction lk with
  | nil => simp
  | cons x xs ih =>
    simp only [firstIdx] at h
    split at h
    · simp at h
    · match hj : firstIdx xs t with
      | some j0 => rw [hj] at h; simp at h
      | none =>
        have := ih hj
        simp only [List.mem_cons]
        rintro (rfl | hm)
        · simp_all
        · exact this hm

theorem assocGet_of_keys {β : Type} :
    ∀ (ms : List (Nat × β)) (base : Nat),
      (∀ k e, ms.get? k = some e → e.1 = base + k) →
      ∀ i, assocGet ms (base + i) = (ms.get? i).map Prod.snd := by
  intro ms
  induction ms with
  | nil => intro base _ i; simp [assocGet]
  | cons e rest ih =>
    intro base hk i
    have he : e.1 = base := by
      have := hk 0 e (by simp)
      simpa using this
    match i with
    | 0 => simp [assocGet, he]
    | i + 1 =>
      have hne : ¬ (e.1 = base + (i + 1)) := by omega
      have hrest : ∀ k e2, rest.get? k = some e2 → e2.1 = (base + 1) + k := by
        intro k e2 h2
        have := hk (k + 1) e2 (by simpa using h2)
        omega
      have := ih (base + 1) hrest i
      simp only [assocGet, hne, if_false]
      rw [show base + (i + 1) = (base + 1) + i by omega] at *
      simpa using this

theorem get?_append_left {l d : List T} {j : Nat} {t : T} (h : l.get? j = some t) :
    (l ++ d).get? j = some t := by
  have hj : j < l.length := by
    by_contra hge
    rw [List.get?_eq_none.2 (by omega)] at h
    exact Option.noConfusion h
  rw [List.get?_append hj]; exact h

theorem nodup_concat {l : List T} {x : T} (h : l.Nodup) (hx : x ∉ l) :
    (l ++ [x]).Nodup := by
  simp [List.nodup_append, h, hx]

theorem except_ok_bind {ε β γ : Type} (x : β) (f : β → Except ε γ) :
    (Except.ok x >>= f) = f x := rfl

theorem except_error_bind {ε β γ : Type} (e : ε) (f : β → Except ε γ) :
    ((Except.error e : Except ε β) >>= f) = Except.error e := rfl

theorem except_error_ne_ok {ε β : Type} (e : ε) :
    ¬ ∃ M, (Except.error e : Except ε β) = Except.ok M := by
  rintro ⟨M, hM⟩
  exact Except.noConfusion hM

end Helpers

section CrawlTheory

variable {α T : Type} [DecidableEq α] [DecidableEq T]

theorem crawlRow_spec (flw : T → Symb α → Option T) (blah : T) :
    ∀ (syms : List (Symb α)) (row : List (Symb α × Nat)) (lk : List T),
      lk.Nodup →
      (∀ c j, assocGet row c = some j →
        ∃ tj, lk.get? j = some tj ∧ flw blah c = some tj) →
      (∀ p ∈ row, p.2 < lk.length) →
      ((crawlRow flw blah syms row lk).2.Nodup ∧
       (∃ d, (crawlRow flw blah syms row lk).2 = lk ++ d) ∧
       (∃ e, (crawlRow flw blah syms row lk).1 = row ++ e) ∧
       (∀ c j, assocGet (crawlRow flw blah syms row lk).1 c = some j →
         ∃ tj, (crawlRow flw blah syms row lk).2.get? j = some tj ∧ flw blah c = some tj) ∧
       (∀ c, c ∈ syms → ∀ t, flw blah c = some t →
         ∃ j, assocGet (crawlRow flw blah syms row lk).1 c = some j) ∧
       (∀ p ∈ (crawlRow flw blah syms row lk).1, p.2 < (crawlRow flw blah syms row lk).2.length)) := by
  intro syms
  induction syms with
  | nil =>
    intro row lk hnd hsound hbound
    refine ⟨hnd, ⟨[], by simp [crawlRow]⟩, ⟨[], by simp [crawlRow]⟩, ?_, ?_, ?_⟩
    · simpa [crawlRow] using hsound
    · intro c hc; simp at hc
    · simpa [crawlRow] using hbound
  | cons c0 rest ih =>
    intro row lk hnd hsound hbound
    cases hf : flw blah c0 with
    | none =>
      have hstep : crawlRow flw blah (c0 :: rest) row lk = crawlRow flw blah rest row lk := by
        simp [crawlRow, hf]
      have H := ih row lk hnd hsound hbound
      rw [hstep]
      refine ⟨H.1, H.2.1, H.2.2.1, H.2.2.2.1, ?_, H.2.2.2.2.2⟩
      intro c hc t ht
      rcases List.mem_cons.1 hc with rfl | hc2
      · rw [hf] at ht; exact Option.noConfusion ht
      · exact H.2.2.2.2.1 c hc2 t ht
    | some next =>
      cases hidx : firstIdx lk next with
      | some j =>
        have hstep : crawlRow flw blah (c0 :: rest) row lk
            = crawlRow flw blah rest (row ++ [(c0, j)]) lk := by
          simp [crawlRow, hf, hidx]
        have hget : lk.get? j = some next := firstIdx_some hidx
        have hsound2 : ∀ c j2, assocGet (row ++ [(c0, j)]) c = some j2 →
            ∃ tj, lk.get? j2 = some tj ∧ flw blah c = some tj := by
          intro c j2 h2
          cases hrv : assocGet row c with
          | some v =>
            rw [assocGet_append_some hrv] at h2
            cases h2
            exact hsound c _ hrv
          | none =>
            rw [assocGet_append_none hrv] at h2
            by_cases hcc : c0 = c
            · subst hcc
              simp only [assocGet, if_pos rfl] at h2
              cases h2
              exact ⟨next, hget, hf⟩
            · simp [assocGet, hcc] at h2
        have hcov0 : ∃ j0, assocGet (row ++ [(c0, j)]) c0 = some j0 := by
          cases hrv : assocGet row c0 with
          | some v => exact ⟨v, assocGet_append_some hrv⟩
          | none =>
            refine ⟨j, ?_⟩
            rw [assocGet_append_none hrv]
            simp [assocGet]
        have hjlt : j < lk.length := (List.get?_eq_some.1 hget).1
        have hbound2 : ∀ p ∈ row ++ [(c0, j)], p.2 < lk.length := by
          intro p hp
          rcases List.mem_append.1 hp with hp1 | hp2
          · exact hbound p hp1
          · rw [List.mem_singleton] at hp2
            rw [hp2]
            exact hjlt
        have H := ih (row ++ [(c0, j)]) lk hnd hsound2 hbound2
        rw [hstep]
        refine ⟨H.1, H.2.1, ?_, H.2.2.2.1, ?_, H.2.2.2.2.2⟩
        · obtain ⟨e, he⟩ := H.2.2.1
          exact ⟨[(c0, j)] ++ e, by simp [he]⟩
        · intro c hc t ht
          rcases List.mem_cons.1 hc with rfl | hc2
          · obtain ⟨j0, hj0⟩ := hcov0
            obtain ⟨e, he⟩ := H.2.2.1
            exact ⟨j0, by rw [he]; exact assocGet_append_some hj0⟩
          · exact H.2.2.2.2.1 c hc2 t ht
      | none =>
        have hstep : crawlRow flw blah (c0 :: rest) row lk
            = crawlRow flw blah rest (row ++ [(c0, lk.length)]) (lk ++ [next]) := by
          simp [crawlRow, hf, hidx]
        have hnotmem : next ∉ lk := firstIdx_none hidx
        have hnd2 : (lk ++ [next]).Nodup := nodup_concat hnd hnotmem
        have hget : (lk ++ [next]).get? lk.length = some next := List.get?_concat_length lk next
        have hsound2 : ∀ c j2, assocGet (row ++ [(c0, lk.length)]) c = some j2 →
            ∃ tj, (lk ++ [next]).get? j2 = some tj ∧ flw blah c = some tj := by
          intro c j2 h2
          cases hrv : assocGet row c with
          | some v =>
            rw [assocGet_append_some hrv] at h2
            cases h2
            obtain ⟨tj, htj, hfc⟩ := hsound c _ hrv
            exact ⟨tj, get?_append_left htj, hfc⟩
          | none =>
            rw [assocGet_append_none hrv] at h2
            by_cases hcc : c0 = c
            · subst hcc
              simp only [assocGet, if_pos rfl] at h2
              cases h2
              exact ⟨next, hget, hf⟩
            · simp [assocGet, hcc] at h2
        have hcov0 : ∃ j0, assocGet (row ++ [(c0, lk.length)]) c0 = some j0 := by
          cases hrv : assocGet row c0 with
          | some v => exact ⟨v, assocGet_append_some hrv⟩
          | none =>
            refine ⟨lk.length, ?_⟩
            rw [assocGet_append_none hrv]
            simp [assocGet]
        have hbound2 : ∀ p ∈ row ++ [(c0, lk.length)], p.2 < (lk ++ [next]).length := by
          intro p hp
          rcases List.mem_append.1 hp with hp1 | hp2
          · have := hbound p hp1
            simp only [List.length_append, List.length_singleton]
            omega
          · rw [List.mem_singleton] at hp2
            rw [hp2]
            simp
        have H := ih (row ++ [(c0, lk.length)]) (lk ++ [next]) hnd2 hsound2 hbound2
        rw [hstep]
        refine ⟨H.1, ?_, ?_, H.2.2.2.1, ?_, H.2.2.2.2.2⟩
        · obtain ⟨d, hd⟩ := H.2.1
          exact ⟨[next] ++ d, by simp [hd]⟩
        · obtain ⟨e, he⟩ := H.2.2.1
          exact ⟨[(c0, lk.length)] ++ e, by simp [he]⟩
        · intro c hc t ht
          rcases List.mem_cons.1 hc with rfl | hc2
          · obtain ⟨j0, hj0⟩ := hcov0
            obtain ⟨e, he⟩ := H.2.2.1
            exact ⟨j0, by rw [he]; exact assocGet_append_some hj0⟩
          · exact H.2.2.2.2.1 c hc2 t ht

theorem crawlGo_succ_lt (alphabet : List (Symb α)) (isFinal : T → Bool)
    (flw : T → Symb α → Option T) (fuel : Nat) (lookup : List T) (finals : List Nat)
    (map : List (Nat × List (Symb α × Nat))) (state : Nat) (h : state < lookup.length) :
    crawlGo alphabet isFinal flw (fuel + 1) lookup finals map state =
      crawlGo alphabet isFinal flw fuel
        (crawlRow flw (lookup.get ⟨state, h⟩) alphabet [] lookup).2
        (if isFinal (lookup.get ⟨state, h⟩) then finals ++ [state] else finals)
        (map ++ [(state, (crawlRow flw (lookup.get ⟨state, h⟩) alphabet [] lookup).1)])
        (state + 1) := by
  simp [crawlGo, h]

theorem crawlGo_succ_ge (alphabet : List (Symb α)) (isFinal : T → Bool)
    (flw : T → Symb α → Option T) (fuel : Nat) (lookup : List T) (finals : List Nat)
    (map : List (Nat × List (Symb α × Nat))) (state : Nat) (h : ¬ state < lookup.length) :
    crawlGo alphabet isFinal flw (fuel + 1) lookup finals map state =
      some ⟨lookup, finals, map⟩ := by
  simp [crawlGo, h]

theorem crawlGo_inv (alphabet : List (Symb α)) (isFinal : T → Bool)
    (flw : T → Symb α → Option T) (init : T) :
    ∀ (fuel : Nat) (lookup : List T) (finals : List Nat)
      (map : List (Nat × List (Symb α × Nat))) (state : Nat) (acc : CrawlAcc α T),
      crawlGo alphabet isFinal flw fuel lookup finals map state = some acc →
      LoopInv alphabet isFinal flw init lookup finals map state →
      GoodAcc alphabet isFinal flw init acc := by
  intro fuel
  induction fuel with
  | zero =>
    intro lookup finals map state acc h
    simp [crawlGo] at h
  | succ fuel ih =>
    intro lookup finals map state acc h inv
    by_cases hlt : state < lookup.length
    · rw [crawlGo_succ_lt alphabet isFinal flw fuel lookup finals map state hlt] at h
      set blah := lookup.get ⟨state, hlt⟩ with hblah
      have hblah? : lookup.get? state = some blah := by
        rw [List.get?_eq_get hlt]
      obtain ⟨hnd2, ⟨d, hd⟩, -, hsound2, hcov2, hbnd2⟩ :=
        crawlRow_spec flw blah alphabet [] lookup inv.nodup
          (by intro c j hj; simp [assocGet] at hj)
          (by intro p hp; simp at hp)
      set pr := crawlRow flw blah alphabet [] lookup with hpr
      have hlen2 : lookup.length ≤ pr.2.length := by
        rw [hd]; simp
      have hlift : ∀ i (t : T), lookup.get? i = some t → pr.2.get? i = some t := by
        intro i t ht; rw [hd]; exact get?_append_left ht
      have hlow : ∀ i, i < lookup.length → pr.2.get? i = lookup.get? i := by
        intro i hi; rw [hd]; exact List.get?_append hi
      refine ih pr.2 _ _ _ acc h ?_
      refine ⟨by omega, by simp [inv.len], hlift 0 init inv.first, hnd2, ?_, ?_, ?_, ?_, ?_⟩
      ·
        intro k e hk
        have hkl : k < map.length + 1 := by
          have := (List.get?_eq_some.1 hk).1
          simpa using this
        by_cases hk2 : k < map.length
        · rw [List.get?_append hk2] at hk
          exact inv.keys k e hk
        · have hkeq : k = map.length := by omega
          subst hkeq
          rw [List.get?_concat_length] at hk
          cases hk
          simp [inv.len]
      · intro i row c j hrow hj
        by_cases hi2 : i < map.length
        · rw [List.get?_append hi2] at hrow
          obtain ⟨ti, tj, hti, htj, hf⟩ := inv.row_some i row c j hrow hj
          exact ⟨ti, tj, hlift i ti hti, hlift j tj htj, hf⟩
        · have hil : i < map.length + 1 := by
            have := (List.get?_eq_some.1 hrow).1
            simpa using this
          have hieq : i = map.length := by omega
          subst hieq
          rw [List.get?_concat_length] at hrow
          injection hrow with hrow1
          injection hrow1 with ha hb
          obtain ⟨tj, htj, hfc⟩ := hsound2 c j (by rw [hb]; exact hj)
          refine ⟨blah, tj, ?_, htj, hfc⟩
          rw [inv.len]
          exact hlift state blah hblah?
      · intro i row c hrow hc ti t hti hf
        by_cases hi2 : i < map.length
        · rw [List.get?_append hi2] at hrow
          have hti0 : lookup.get? i = some ti := by
            have := hlow i (by
              have := (List.get?_eq_some.1 hti).1
              -- i < map.length = state ≤ lookup.length
              have hsl := inv.hstate
              have hl := inv.len
              omega)
            rw [this] at hti
            exact hti
          exact inv.row_mem i row c hrow hc ti t hti0 hf
        · have hil : i < map.length + 1 := by
            have := (List.get?_eq_some.1 hrow).1
            simpa using this
          have hieq : i = map.length := by omega
          subst hieq
          rw [List.get?_concat_length] at hrow
          injection hrow with hrow1
          injection hrow1 with ha hb
          have h2 : pr.2.get? map.length = some blah := by
            rw [inv.len]
            exact hlift state blah hblah?
          rw [h2] at hti
          injection hti with h3
          rw [← h3] at hf
          obtain ⟨j, hj⟩ := hcov2 c hc t hf
          exact ⟨j, by rw [← hb]; exact hj⟩
      · intro i
        have hbase : ∀ k, k ∈ finals ↔ k < state ∧ ∃ tk, pr.2.get? k = some tk ∧ isFinal tk = true := by
          intro k
          rw [inv.fin k]
          constructor
          · rintro ⟨hk, tk, htk, hfk⟩
            exact ⟨hk, tk, hlift k tk htk, hfk⟩
          · rintro ⟨hk, tk, htk, hfk⟩
            refine ⟨hk, tk, ?_, hfk⟩
            rw [← hlow k (by omega)]
            exact htk
        by_cases hfb : isFinal blah = true
        · rw [if_pos hfb]
          simp only [List.mem_append, List.mem_singleton]
          rw [hbase i]
          constructor
          · rintro (⟨hk, tk, htk, hfk⟩ | rfl)
            · exact ⟨by omega, tk, htk, hfk⟩
            · exact ⟨by omega, blah, hlift i blah hblah?, hfb⟩
          · rintro ⟨hk, tk, htk, hfk⟩
            by_cases his : i < state
            · exact Or.inl ⟨his, tk, htk, hfk⟩
            · exact Or.inr (by omega)
        · rw [if_neg hfb]
          rw [hbase i]
          constructor
          · rintro ⟨hk, tk, htk, hfk⟩
            exact ⟨by omega, tk, htk, hfk⟩
          · rintro ⟨hk, tk, htk, hfk⟩
            refine ⟨?_, tk, htk, hfk⟩
            by_cases his : i < state
            · exact his
            · exfalso
              have hieq : i = state := by omega
              subst hieq
              rw [hlift i blah hblah?] at htk
              injection htk with h3
              rw [← h3] at hfk
              exact hfb hfk
      · intro em hem p hp
        rcases List.mem_append.1 hem with hem1 | hem2
        · have := inv.row_bound em hem1 p hp
          omega
        · rw [List.mem_singleton] at hem2
          rw [hem2] at hp
          exact hbnd2 p hp
    · rw [crawlGo_succ_ge alphabet isFinal flw fuel lookup finals map state hlt] at h
      cases h
      have hse : state = lookup.length := by
        have := inv.hstate
        omega
      refine ⟨by simp [inv.len, hse], inv.first, inv.nodup, inv.keys, inv.row_some,
        inv.row_mem, ?_, inv.row_bound⟩
      intro i
      rw [inv.fin i]
      constructor
      · rintro ⟨-, tk, htk, hfk⟩
        exact ⟨tk, htk, hfk⟩
      · rintro ⟨tk, htk, hfk⟩
        refine ⟨?_, tk, htk, hfk⟩
        have hmem := (List.get?_eq_some.1 htk).1
        have h3 : (⟨lookup, finals, map⟩ : CrawlAcc α T).lookup = lookup := rfl
        rw [h3] at hmem
        omega

theorem loopInv_start (alphabet : List (Symb α)) (isFinal : T → Bool)
    (flw : T → Symb α → Option T) (init : T) :
    LoopInv alphabet isFinal flw init [init] [] [] 0 := by
  refine ⟨by simp, rfl, rfl, by simp, ?_, ?_, ?_, ?_, ?_⟩
  · intro k e hk; simp at hk
  · intro i row c j hrow; simp at hrow
  · intro i row c hrow; simp at hrow
  · intro i
    constructor
    · intro h; simp at h
    · rintro ⟨h, -⟩; omega
  · intro em hem; simp at hem

theorem absRun_none (flw : T → Symb α → Option T) : ∀ s, absRun flw none s = none := by
  intro s
  induction s with
  | nil => rfl
  | cons c rest ih => simpa [absRun] using ih

end CrawlTheory

section MainTheory

variable {α σ : Type} [DecidableEq α] [DecidableEq σ] {T : Type} [DecidableEq T]

theorem Main.Fsm.followStar_none (f : Main.Fsm α σ) : ∀ s, f.followStar none s = none := by
  intro s
  induction s with
  | nil => rfl
  | cons c rest ih => simpa [Main.Fsm.followStar, Main.Fsm.follow] using ih

theorem Main.Fsm.follow_wc (f : Main.Fsm α σ) : ∀ (st : Option σ) (c : Symb α),
    f.follow st c = none → f.follow st Symb.anythingElse = none := by
  intro st c h
  match st with
  | none => rfl
  | some s =>
    unfold Main.Fsm.follow at h ⊢
    match hm : assocGet f.map s with
    | none => simp [hm]
    | some row =>
      simp only [hm] at h ⊢
      match hc : assocGet row c with
      | some v => simp [hc] at h
      | none =>
        simp only [hc] at h
        simp [h]

theorem Main.crawl_eq (alphabet : List (Symb α)) (initial : T) (isFinal : T → Bool)
    (flw : T → Symb α → Option T) (fuel : Nat) (M : Main.Fsm α Nat)
    (h : Main.crawl alphabet initial isFinal flw fuel = some M) :
    ∃ acc : CrawlAcc α T,
      crawlGo alphabet isFinal flw fuel [initial] [] [] 0 = some acc ∧
      GoodAcc alphabet isFinal flw initial acc ∧
      M.map = acc.map ∧ M.finals = acc.finals ∧ M.initial = 0 := by
  unfold Main.crawl at h
  match hgo : crawlGo alphabet isFinal flw fuel [initial] [] [] 0 with
  | none => rw [hgo] at h; exact Option.noConfusion h
  | some acc =>
    rw [hgo] at h
    simp only [Option.some_bind] at h
    unfold Main.mkFsm at h
    match hs : Main.scanGo acc.map fuel [] [(0 : Nat)] 0 with
    | none => rw [hs] at h; exact Option.noConfusion h
    | some pr =>
      rw [hs] at h
      simp only [Option.map_some'] at h
      refine ⟨acc, rfl,
        crawlGo_inv alphabet isFinal flw initial fuel _ _ _ _ acc hgo
          (loopInv_start alphabet isFinal flw initial), ?_, ?_, ?_⟩ <;>
        · injection h with h1
          rw [← h1]

theorem GoodAcc.mapRow {alphabet : List (Symb α)} {isFinal : T → Bool}
    {flw : T → Symb α → Option T} {init : T} {acc : CrawlAcc α T}
    (g : GoodAcc alphabet isFinal flw init acc) (i : Nat) :
    assocGet acc.map i = (acc.map.get? i).map Prod.snd := by
  have hk : ∀ k e, acc.map.get? k = some e → e.1 = 0 + k := by
    intro k e hke
    rw [Nat.zero_add]
    exact g.keys k e hke
  have := assocGet_of_keys acc.map 0 hk i
  rwa [Nat.zero_add] at this

theorem GoodAcc.follow_eq {alphabet : List (Symb α)} {isFinal : T → Bool}
    {flw : T → Symb α → Option T} {init : T} {acc : CrawlAcc α T}
    (g : GoodAcc alphabet isFinal flw init acc)
    (WC : ∀ t c, flw t c = none → flw t Symb.anythingElse = none)
    (M : Main.Fsm α Nat) (hmap : M.map = acc.map) :
    ∀ i ti c, acc.lookup.get? i = some ti → c ∈ alphabet →
      ((flw ti c = none → M.follow (some i) c = none) ∧
       (∀ t, flw ti c = some t →
         ∃ j, M.follow (some i) c = some j ∧ acc.lookup.get? j = some t)) := by
  intro i ti c hti hc
  have hil : i < acc.lookup.length := (List.get?_eq_some.1 hti).1
  have himl : i < acc.map.length := by rw [g.len]; exact hil
  obtain ⟨e, he⟩ := List.get?_eq_some.1 (List.get?_eq_some.2
    ⟨himl, rfl⟩ : acc.map.get? i = some (acc.map.get ⟨i, himl⟩))
  have hei : acc.map.get? i = some (acc.map.get ⟨i, himl⟩) := List.get?_eq_get himl
  set e0 := acc.map.get ⟨i, himl⟩ with he0
  have hkey : e0.1 = i := g.keys i e0 hei
  have hrowget : acc.map.get? i = some (i, e0.2) := by
    rw [hei]
    congr 1
    rw [← hkey]
  have hassoc : assocGet M.map i = some e0.2 := by
    rw [hmap, g.mapRow i, hei]
    rfl
  constructor
  · intro hnone
    have hrc : assocGet e0.2 c = none := by
      cases hrc : assocGet e0.2 c with
      | none => rfl
      | some j =>
        obtain ⟨ti2, tj, hti2, htj, hf⟩ := g.row_some i e0.2 c j hrowget hrc
        rw [hti] at hti2
        injection hti2 with h2
        rw [← h2] at hf
        rw [hf] at hnone
        exact Option.noConfusion hnone
    have hrae : assocGet e0.2 Symb.anythingElse = none := by
      cases hrae : assocGet e0.2 Symb.anythingElse with
      | none => rfl
      | some j =>
        obtain ⟨ti2, tj, hti2, htj, hf⟩ := g.row_some i e0.2 Symb.anythingElse j hrowget hrae
        rw [hti] at hti2
        injection hti2 with h2
        rw [← h2] at hf
        rw [WC ti c hnone] at hf
        exact Option.noConfusion hf
    unfold Main.Fsm.follow
    simp [hassoc, hrc, hrae]
  · intro t ht
    obtain ⟨j, hj⟩ := g.row_mem i e0.2 c hrowget hc ti t hti ht
    obtain ⟨ti2, tj, hti2, htj, hf⟩ := g.row_some i e0.2 c j hrowget hj
    rw [hti] at hti2
    injection hti2 with h2
    rw [← h2] at hf
    rw [ht] at hf
    injection hf with h3
    refine ⟨j, ?_, by rw [← h3] at htj; exact htj⟩
    unfold Main.Fsm.follow
    simp [hassoc, hj]

theorem GoodAcc.sim {alphabet : List (Symb α)} {isFinal : T → Bool}
    {flw : T → Symb α → Option T} {init : T} {acc : CrawlAcc α T}
    (g : GoodAcc alphabet isFinal flw init acc)
    (WC : ∀ t c, flw t c = none → flw t Symb.anythingElse = none)
    (M : Main.Fsm α Nat) (hmap : M.map = acc.map) :
    ∀ s, (∀ c ∈ s, c ∈ alphabet) → ∀ i ti, acc.lookup.get? i = some ti →
      ((absRun flw (some ti) s = none → M.followStar (some i) s = none) ∧
       (∀ t, absRun flw (some ti) s = some t →
         ∃ j, M.followStar (some i) s = some j ∧ acc.lookup.get? j = some t)) := by
  intro s
  induction s with
  | nil =>
    intro hs i ti hti
    constructor
    · intro h; exact Option.noConfusion h
    · intro t ht
      injection ht with h2
      exact ⟨i, rfl, by rw [h2] at hti; exact hti⟩
  | cons c rest ih =>
    intro hs i ti hti
    have hc : c ∈ alphabet := hs c (by simp)
    have hrest : ∀ c2 ∈ rest, c2 ∈ alphabet := fun c2 h2 => hs c2 (by simp [h2])
    have habs : absRun flw (some ti) (c :: rest) = absRun flw (flw ti c) rest := by
      simp [absRun]
    have hstar : M.followStar (some i) (c :: rest)
        = M.followStar (M.follow (some i) c) rest := rfl
    cases hstep : flw ti c with
    | none =>
      have hMf : M.follow (some i) c = none :=
        ((g.follow_eq WC M hmap) i ti c hti hc).1 hstep
      constructor
      · intro _
        rw [hstar, hMf]
        exact M.followStar_none rest
      · intro t ht
        rw [habs, hstep, absRun_none] at ht
        exact Option.noConfusion ht
    | some t2 =>
      obtain ⟨j, hMf, hj⟩ := ((g.follow_eq WC M hmap) i ti c hti hc).2 t2 hstep
      have IH := ih hrest j t2 hj
      constructor
      · intro h
        rw [habs, hstep] at h
        rw [hstar, hMf]
        exact IH.1 h
      · intro t ht
        rw [habs, hstep] at ht
        rw [hstar, hMf]
        exact IH.2 t ht

theorem GoodAcc.accepts_eq {alphabet : List (Symb α)} {isFinal : T → Bool}
    {flw : T → Symb α → Option T} {init : T} {acc : CrawlAcc α T}
    (g : GoodAcc alphabet isFinal flw init acc)
    (WC : ∀ t c, flw t c = none → flw t Symb.anythingElse = none)
    (M : Main.Fsm α Nat) (hmap : M.map = acc.map) (hfin : M.finals = acc.finals)
    (hini : M.initial = 0)
    (s : List (Symb α)) (hs : ∀ c ∈ s, c ∈ alphabet) :
    M.accepts s = (match absRun flw (some init) s with
                   | none => false
                   | some t => isFinal t) := by
  have H := (g.sim WC M hmap) s hs 0 init g.first
  unfold Main.Fsm.accepts
  rw [hini]
  match hab : absRun flw (some init) s with
  | none =>
    rw [H.1 hab]
    rfl
  | some t =>
    obtain ⟨j, hj, hjt⟩ := H.2 t hab
    rw [hj]
    unfold Main.Fsm.hasFinalState
    rw [hfin]
    by_cases hjf : j ∈ acc.finals
    · obtain ⟨tj, htj, hftj⟩ := (g.fin j).1 hjf
      rw [hjt] at htj
      injection htj with h2
      rw [← h2] at hftj
      simp [hjf, hftj]
    · have hft : isFinal t = false := by
        cases hft : isFinal t with
        | false => rfl
        | true => exact absurd ((g.fin j).2 ⟨t, hjt, hft⟩) hjf
      simp [hjf, hft]

theorem Main.Fsm.followStar_append (f : Main.Fsm α σ) :
    ∀ (u v : List (Symb α)) (st : Option σ),
      f.followStar st (u ++ v) = f.followStar (f.followStar st u) v := by
  intro u
  induction u with
  | nil => intro v st; rfl
  | cons c rest ih => intro v st; simpa [Main.Fsm.followStar] using ih v (f.follow st c)

theorem Main.parallelFollow_eq (ps : List (Main.Fsm α σ × σ)) (c : Symb α) :
    Main.parallelFollow ps c =
      (if (ps.filterMap fun p => (p.1.follow (some p.2) c).map fun t => (p.1, t)) = []
       then none
       else some (ps.filterMap fun p => (p.1.follow (some p.2) c).map fun t => (p.1, t))) := by
  unfold Main.parallelFollow
  dsimp only
  rw [List.filterMap_map]
  rfl

theorem Main.runPairs_nil (Fs : List (Main.Fsm α σ)) :
    Main.runPairs Fs [] = Fs.map fun f => (f, f.initial) := by
  unfold Main.runPairs
  induction Fs with
  | nil => rfl
  | cons f rest ih => simpa [Main.Fsm.followStar] using ih

theorem Main.runPairs_step (Fs : List (Main.Fsm α σ)) (u : List (Symb α)) (c : Symb α) :
    Main.runPairs Fs (u ++ [c]) =
      (Main.runPairs Fs u).filterMap fun p => (p.1.follow (some p.2) c).map fun t => (p.1, t) := by
  unfold Main.runPairs
  rw [List.filterMap_filterMap]
  congr 1
  funext f
  cases hfs : f.followStar (some f.initial) u with
  | none =>
    have : f.followStar (some f.initial) (u ++ [c]) = none := by
      rw [Main.Fsm.followStar_append, hfs]
      rfl
    simp [this, hfs]
  | some t =>
    have : f.followStar (some f.initial) (u ++ [c]) = f.follow (some t) c := by
      rw [Main.Fsm.followStar_append, hfs]
      rfl
    simp [this]

theorem Main.runPairs_eq_nil_iff (Fs : List (Main.Fsm α σ)) (s : List (Symb α)) :
    Main.runPairs Fs s = [] ↔ ∀ f ∈ Fs, f.followStar (some f.initial) s = none := by
  unfold Main.runPairs
  rw [List.filterMap_eq_nil]
  constructor
  · intro h f hf
    have := h f hf
    cases hfs : f.followStar (some f.initial) s with
    | none => rfl
    | some t => rw [hfs] at this; simp at this
  · intro h f hf
    rw [h f hf]
    rfl

theorem Main.mem_runPairs (Fs : List (Main.Fsm α σ)) (s : List (Symb α))
    (g : Main.Fsm α σ) (t : σ) :
    (g, t) ∈ Main.runPairs Fs s ↔ g ∈ Fs ∧ g.followStar (some g.initial) s = some t := by
  unfold Main.runPairs
  rw [List.mem_filterMap]
  constructor
  · rintro ⟨f, hf, hmap⟩
    cases hfs : f.followStar (some f.initial) s with
    | none => rw [hfs] at hmap; simp at hmap
    | some t2 =>
      rw [hfs] at hmap
      simp only [Option.map_some'] at hmap
      injection hmap with h2
      injection h2 with ha hb
      subst ha
      subst hb
      exact ⟨hf, hfs⟩
  · rintro ⟨hg, hgs⟩
    exact ⟨g, hg, by rw [hgs]; rfl⟩

theorem Main.runPairs_dead_mono (Fs : List (Main.Fsm α σ)) (v w : List (Symb α))
    (h : Main.runPairs Fs v = []) : Main.runPairs Fs (v ++ w) = [] := by
  rw [Main.runPairs_eq_nil_iff] at h ⊢
  intro f hf
  rw [Main.Fsm.followStar_append, h f hf]
  exact f.followStar_none w

theorem Main.absRun_parallel (Fs : List (Main.Fsm α σ)) :
    ∀ (s u : List (Symb α)), Main.runPairs Fs u ≠ [] →
      absRun Main.parallelFollow (some (Main.runPairs Fs u)) s =
        (if Main.runPairs Fs (u ++ s) = []
         then none
         else some (Main.runPairs Fs (u ++ s))) := by
  intro s
  induction s with
  | nil =>
    intro u hne
    simp [absRun, hne]
  | cons c rest ih =>
    intro u hne
    have hsplit : u ++ c :: rest = (u ++ [c]) ++ rest := by simp
    have habs : absRun Main.parallelFollow (some (Main.runPairs Fs u)) (c :: rest)
        = absRun Main.parallelFollow (Main.parallelFollow (Main.runPairs Fs u) c) rest := by
      simp [absRun]
    rw [habs, hsplit]
    have hpf := Main.parallelFollow_eq (Main.runPairs Fs u) c
    rw [← Main.runPairs_step Fs u c] at hpf
    by_cases hn : Main.runPairs Fs (u ++ [c]) = []
    · rw [hpf, if_pos hn, absRun_none]
      rw [if_pos (Main.runPairs_dead_mono Fs (u ++ [c]) rest hn)]
    · rw [hpf, if_neg hn]
      exact ih (u ++ [c]) hn

theorem Main.parallelFollow_wc (ps : List (Main.Fsm α σ × σ)) (c : Symb α)
    (h : Main.parallelFollow ps c = none) :
    Main.parallelFollow ps Symb.anythingElse = none := by
  rw [Main.parallelFollow_eq] at h ⊢
  have hall : ∀ p ∈ ps, p.1.follow (some p.2) c = none := by
    by_cases hnil : (ps.filterMap fun p => (p.1.follow (some p.2) c).map fun t => (p.1, t)) = []
    · intro p hp
      have := (List.filterMap_eq_nil.1 hnil) p hp
      cases hf : p.1.follow (some p.2) c with
      | none => rfl
      | some t => rw [hf] at this; simp at this
    · rw [if_neg hnil] at h; exact Option.noConfusion h
  have hnil2 : (ps.filterMap fun p =>
      (p.1.follow (some p.2) Symb.anythingElse).map fun t => (p.1, t)) = [] := by
    rw [List.filterMap_eq_nil]
    intro p hp
    rw [p.1.follow_wc (some p.2) c (hall p hp)]
    rfl
  rw [if_pos hnil2]

theorem Main.parallel_accepts (Fs : List (Main.Fsm α σ))
    (isFinal : List (Main.Fsm α σ × σ) → Bool) (fuel : Nat) (M : Main.Fsm α Nat)
    (hM : Main.parallel Fs isFinal fuel = some M) (hne : Fs ≠ [])
    (s : List (Symb α)) (hs : ∀ c ∈ s, c ∈ unifyAlphabets (Fs.map Main.Fsm.alphabet)) :
    M.accepts s =
      (if Main.runPairs Fs s = [] then false else isFinal (Main.runPairs Fs s)) := by
  unfold Main.parallel at hM
  obtain ⟨acc, hgo, g, hmap, hfin, hini⟩ :=
    Main.crawl_eq (unifyAlphabets (Fs.map Main.Fsm.alphabet))
      (Fs.map fun f => (f, f.initial)) isFinal Main.parallelFollow fuel M hM
  have hacc := g.accepts_eq Main.parallelFollow_wc M hmap hfin hini s hs
  have hI : (Fs.map fun f => (f, f.initial)) = Main.runPairs Fs [] :=
    (Main.runPairs_nil Fs).symm
  have hne0 : Main.runPairs Fs [] ≠ [] := by
    rw [Main.runPairs_nil]
    simpa using hne
  rw [hI] at hacc
  rw [Main.absRun_parallel Fs s [] hne0] at hacc
  simp only [List.nil_append] at hacc
  by_cases hrp : Main.runPairs Fs s = []
  · rw [if_pos hrp] at hacc
    rw [if_pos hrp]
    exact hacc
  · rw [if_neg hrp] at hacc
    rw [if_neg hrp]
    exact hacc

end MainTheory

section UnionIntersectionClaims

variable {α σ : Type} [DecidableEq α] [DecidableEq σ]

/-- C1: for every non-empty list `Fs` of automata and every input sequence
`s` over the union of their alphabets, whenever `union(Fs)` is built (the
crawl terminates), `union(Fs).accepts(s)` is true exactly when
`f.accepts(s)` is true for at least one `f` in `Fs`. -/
theorem claim_C1 (Fs : List (Main.Fsm α σ)) (hne : Fs ≠ []) (fuel : Nat)
    (M : Main.Fsm α Nat) (hM : Main.union Fs fuel = some M)
    (s : List (Symb α)) (hs : ∀ c ∈ s, c ∈ unifyAlphabets (Fs.map Main.Fsm.alphabet)) :
    M.accepts s = Fs.any fun f => f.accepts s := by
  unfold Main.union at hM
  rw [Main.parallel_accepts Fs _ fuel M hM hne s hs]
  by_cases hrp : Main.runPairs Fs s = []
  · rw [if_pos hrp]
    apply bool_eq_of_iff
    simp only [Bool.false_eq_true, false_iff]
    intro hany
    obtain ⟨f, hf, hacc⟩ := List.any_eq_true.1 hany
    have hdead := (Main.runPairs_eq_nil_iff Fs s).1 hrp f hf
    unfold Main.Fsm.accepts at hacc
    rw [hdead] at hacc
    exact Bool.noConfusion hacc
  · rw [if_neg hrp]
    apply bool_eq_of_iff
    rw [List.any_eq_true, List.any_eq_true]
    constructor
    · rintro ⟨⟨g, t⟩, hp, hfin⟩
      obtain ⟨hg, hgs⟩ := (Main.mem_runPairs Fs s g t).1 hp
      refine ⟨g, hg, ?_⟩
      unfold Main.Fsm.accepts
      rw [hgs]
      exact hfin
    · rintro ⟨f, hf, hacc⟩
      unfold Main.Fsm.accepts at hacc
      cases hfs : f.followStar (some f.initial) s with
      | none =>
        rw [hfs] at hacc
        exact Bool.noConfusion hacc
      | some t =>
        rw [hfs] at hacc
        exact ⟨(f, t), (Main.mem_runPairs Fs s f t).2 ⟨hf, hfs⟩, hacc⟩

/-- C1 witness: `union([exA, exB])` accepts "a" because `exA` does. -/
theorem claim_C1_witness :
    (Main.union [exA, exB] 20).map (fun M => M.accepts [Symb.sym 'a']) =
      some ([exA, exB].any fun f => f.accepts [Symb.sym 'a']) := by
  cases h : Main.union [exA, exB] 20 with
  | none => exact absurd h (by decide)
  | some M =>
    simp only [Option.map_some']
    exact congrArg some
      (claim_C1 [exA, exB] (List.cons_ne_nil _ _) 20 M h [Symb.sym 'a'] (by decide))

/-- C2: for every non-empty list `Fs` of automata and every input sequence
`s` over the union of their alphabets, whenever `intersection(Fs)` is built,
`intersection(Fs).accepts(s)` is true exactly when `f.accepts(s)` is true
for every `f` in `Fs`; the product superstate is final only when every
input automaton is represented in the pair list by one of its final
substates, so a conjunct that has fallen into oblivion makes the superstate
non-final. -/
theorem claim_C2 (Fs : List (Main.Fsm α σ)) (hne : Fs ≠ []) (fuel : Nat)
    (M : Main.Fsm α Nat) (hM : Main.intersection Fs fuel = some M)
    (s : List (Symb α)) (hs : ∀ c ∈ s, c ∈ unifyAlphabets (Fs.map Main.Fsm.alphabet)) :
    M.accepts s = Fs.all fun f => f.accepts s := by
  unfold Main.intersection at hM
  rw [Main.parallel_accepts Fs _ fuel M hM hne s hs]
  by_cases hrp : Main.runPairs Fs s = []
  · rw [if_pos hrp]
    apply bool_eq_of_iff
    simp only [Bool.false_eq_true, false_iff]
    intro hall
    obtain ⟨f0, hf0⟩ := List.exists_mem_of_ne_nil Fs hne
    have hacc := List.all_eq_true.1 hall f0 hf0
    have hdead := (Main.runPairs_eq_nil_iff Fs s).1 hrp f0 hf0
    unfold Main.Fsm.accepts at hacc
    rw [hdead] at hacc
    exact Bool.noConfusion hacc
  · rw [if_neg hrp]
    apply bool_eq_of_iff
    rw [List.all_eq_true, List.all_eq_true]
    constructor
    · intro hall f hf
      have h2 := List.any_eq_true.1 (hall f hf)
      obtain ⟨⟨g, t⟩, hp, hgt⟩ := h2
      rw [Bool.and_eq_true] at hgt
      have hgf : g = f := of_decide_eq_true hgt.1
      obtain ⟨hg, hgs⟩ := (Main.mem_runPairs Fs s g t).1 hp
      unfold Main.Fsm.accepts
      rw [hgf] at hgs
      rw [hgs]
      rw [hgf] at hgt
      exact hgt.2
    · intro hall f hf
      have hacc := hall f hf
      unfold Main.Fsm.accepts at hacc
      cases hfs : f.followStar (some f.initial) s with
      | none =>
        rw [hfs] at hacc
        exact Bool.noConfusion hacc
      | some t =>
        rw [hfs] at hacc
        apply List.any_eq_true.2
        refine ⟨(f, t), (Main.mem_runPairs Fs s f t).2 ⟨hf, hfs⟩, ?_⟩
        rw [Bool.and_eq_true]
        exact ⟨decide_eq_true rfl, hacc⟩

/-- C2 witness: `intersection([exA, exB])` rejects "a" because `exB`
rejects it. -/
theorem claim_C2_witness :
    (Main.intersection [exA, exB] 20).map (fun M => M.accepts [Symb.sym 'a']) =
      some ([exA, exB].all fun f => f.accepts [Symb.sym 'a']) := by
  cases h : Main.intersection [exA, exB] 20 with
  | none => exact absurd h (by decide)
  | some M =>
    simp only [Option.map_some']
    exact congrArg some
      (claim_C2 [exA, exB] (List.cons_ne_nil _ _) 20 M h [Symb.sym 'a'] (by decide))

end UnionIntersectionClaims

section StarEmptyConcatClaims

variable {α σ : Type} [DecidableEq α] [DecidableEq σ]

/-- C4: for every automaton `A`, whenever `star(A)` is built, it accepts the
empty sequence — the result is the union of `Fsm.EPSILON` with the crawled
closure automaton, and the Epsilon component makes the initial superstate
final regardless of whether `A`'s own initial state is final. -/
theorem claim_C4 (f : Main.Fsm α σ) (fuel : Nat) (M : Main.Fsm α Nat)
    (hM : Main.star f fuel = some M) : M.accepts [] = true := by
  unfold Main.star at hM
  rw [Option.bind_eq_some] at hM
  obtain ⟨C, hC, hM2⟩ := hM
  have h := claim_C1 [Main.EPSILON, C] (List.cons_ne_nil _ _) fuel M hM2 []
    (by intro c hc; simp at hc)
  rw [h]
  apply List.any_eq_true.2
  refine ⟨Main.EPSILON, by simp, ?_⟩
  rfl

/-- C4 witness: `star` of the one-state machine `Fsm.NOTHING` accepts the
empty sequence. -/
theorem claim_C4_witness :
    (Main.star (Main.NOTHING : Main.Fsm Char Nat) 9).map (fun M => M.accepts []) =
      some true := by
  cases h : Main.star (Main.NOTHING : Main.Fsm Char Nat) 9 with
  | none => exact absurd h (by decide)
  | some M =>
    simp only [Option.map_some']
    exact congrArg some (claim_C4 Main.NOTHING 9 M h)

/-- C10: `union([])` does not raise and is not `null` (contrary to the doc
comment): with any sufficient fuel it returns the automaton whose lone state
is the id of the empty pair list, which is not final and has an empty
transition row, so it rejects every input sequence including the empty
one. -/
theorem claim_C10 (fuel : Nat) :
    Main.union ([] : List (Main.Fsm α σ)) (fuel + 2) =
        some (⟨[], [0], [], [(0, [])], 0⟩ : Main.Fsm α Nat) ∧
    Main.runPairs ([] : List (Main.Fsm α σ)) [] = [] ∧
    (∀ s : List (Symb α), (⟨[], [0], [], [(0, [])], 0⟩ : Main.Fsm α Nat).accepts s = false) := by
  refine ⟨?_, rfl, ?_⟩
  · simp [Main.union, Main.parallel, Main.crawl, Main.mkFsm, crawlGo, crawlRow,
      Main.scanGo, unifyAlphabets, assocGet, Main.scanRow]
  · intro s
    cases s with
    | nil => rfl
    | cons c rest =>
      unfold Main.Fsm.accepts
      have h1 : (⟨[], [0], [], [(0, [])], 0⟩ : Main.Fsm α Nat).follow (some 0) c = none := by
        cases c <;> rfl
      show (⟨[], [0], [], [(0, [])], 0⟩ : Main.Fsm α Nat).hasFinalState
        ((⟨[], [0], [], [(0, [])], 0⟩ : Main.Fsm α Nat).followStar
          ((⟨[], [0], [], [(0, [])], 0⟩ : Main.Fsm α Nat).follow (some 0) c) rest) = false
      rw [h1, Main.Fsm.followStar_none]
      rfl

/-- C10 witness: the concrete evaluation at `α = σ = Char`, input
`[anythingElse]`. -/
theorem claim_C10_witness :
    Main.union ([] : List (Main.Fsm Char Char)) 2 =
        some (⟨[], [0], [], [(0, [])], 0⟩ : Main.Fsm Char Nat) ∧
    (⟨[], [0], [], [(0, [])], 0⟩ : Main.Fsm Char Nat).accepts [Symb.anythingElse] = false :=
  ⟨(@claim_C10 Char Char _ _ 0).1, (@claim_C10 Char Char _ _ 0).2.2 [Symb.anythingElse]⟩

/-- C3 (the code evaluated at a failing input): `exA` accepts exactly "a"
and `exB` accepts exactly "b", yet `concatenate([exA, exB])` rejects "ab",
because the dedup test in concatenate's `follow` compares a candidate pair
against the *source* pair's machine index (`x.i === i`), which drops the
freshly connected `(1, exB.initial)` pair whenever `exA` steps into a final
state whose name equals `exB.initial` (here both are "0"). -/
theorem claim_C3_bug :
    Main.mkFsm ["0"] [("i", [(Symb.sym 'a', "0")])] "i" 9 = some exA ∧
    Main.mkFsm ["f"] [("0", [(Symb.sym 'b', "f")])] "0" 9 = some exB ∧
    exA.accepts [Symb.sym 'a'] = true ∧
    exB.accepts [Symb.sym 'b'] = true ∧
    (Main.concatenate [exA, exB] 20).map
        (fun M => M.accepts [Symb.sym 'a', Symb.sym 'b']) = some false := by
  refine ⟨by decide, by decide, by decide, by decide, by decide⟩

end StarEmptyConcatClaims

section CrawlClaim

/-- C5: for every alphabet (a set of symbols, so duplicate-free), initial
superstate, finality predicate and successor function, whenever the crawl
worklist terminates (the fuel hypothesis — the reachable superstate space
being finite is the caller's obligation), `crawl` returns an automaton whose
states are exactly the discovered superstates canonically numbered by
discovery order with the initial superstate numbered 0; an oblivion
successor produces no transition entry (the table stays sparse, and no
oblivion superstate is ever discovered); and a computed successor is
identified with an already-discovered superstate exactly when the two are
structurally equal (the discovered superstates are pairwise distinct, and
every recorded transition points at the superstate equal to the computed
successor). -/
theorem claim_C5 {α T : Type} [DecidableEq α] [DecidableEq T]
    (alphabet : List (Symb α)) (hA : alphabet.Nodup)
    (initial : T) (isFinal : T → Bool) (flw : T → Symb α → Option T)
    (fuel : Nat) (acc : CrawlAcc α T)
    (hgo : crawlGo alphabet isFinal flw fuel [initial] [] [] 0 = some acc) :
    V1.crawl alphabet initial isFinal flw fuel =
      some (Except.ok (⟨alphabet, (List.range acc.lookup.length).map Nat.repr, "0",
        acc.finals.map Nat.repr,
        acc.map.map fun em => (Nat.repr em.1, em.2.map fun tr => (tr.1, Nat.repr tr.2))⟩ :
          V1.Fsm α String)) ∧
    acc.lookup.get? 0 = some initial ∧
    acc.lookup.Nodup ∧
    acc.map.length = acc.lookup.length ∧
    (∀ k e, acc.map.get? k = some e → e.1 = k) ∧
    (∀ i row c j, acc.map.get? i = some (i, row) → assocGet row c = some j →
       ∃ ti tj, acc.lookup.get? i = some ti ∧ acc.lookup.get? j = some tj ∧
         flw ti c = some tj) ∧
    (∀ i row c, acc.map.get? i = some (i, row) →
       ∀ ti, acc.lookup.get? i = some ti → flw ti c = none → assocGet row c = none) ∧
    (∀ i, i ∈ acc.finals ↔ ∃ ti, acc.lookup.get? i = some ti ∧ isFinal ti = true) := by
  have g := crawlGo_inv alphabet isFinal flw initial fuel _ _ _ _ acc hgo
    (loopInv_start alphabet isFinal flw initial)
  have hn0 : 0 < acc.lookup.length := (List.get?_eq_some.1 g.first).1
  have h0mem : ("0" : String) ∈ (List.range acc.lookup.length).map Nat.repr := by
    have hz : ("0" : String) = Nat.repr 0 := rfl
    rw [hz]
    exact List.mem_map_of_mem Nat.repr (List.mem_range.2 hn0)
  have hfinals : ((acc.finals.map Nat.repr).all fun fynal =>
      decide (fynal ∈ (List.range acc.lookup.length).map Nat.repr)) = true := by
    rw [List.all_eq_true]
    intro x hx
    obtain ⟨i, hi, rfl⟩ := List.mem_map.1 hx
    apply decide_eq_true
    obtain ⟨ti, hti, -⟩ := (g.fin i).1 hi
    exact List.mem_map_of_mem Nat.repr (List.mem_range.2 (List.get?_eq_some.1 hti).1)
  have htrans : (((acc.map.map fun em =>
        (Nat.repr em.1, em.2.map fun tr => (tr.1, Nat.repr tr.2))).all
      fun e => e.2.all fun tr => decide (tr.1 = Symb.anythingElse) ||
        decide (tr.2 ∈ (List.range acc.lookup.length).map Nat.repr)) = true) := by
    rw [List.all_eq_true]
    intro e he
    obtain ⟨em, hem, rfl⟩ := List.mem_map.1 he
    rw [List.all_eq_true]
    intro tr2 htr2
    obtain ⟨tr, htr, rfl⟩ := List.mem_map.1 htr2
    have hb := g.row_bound em hem tr htr
    rw [Bool.or_eq_true]
    right
    apply decide_eq_true
    exact List.mem_map_of_mem Nat.repr (List.mem_range.2 hb)
  refine ⟨?_, g.first, g.nodup, g.len, g.keys, g.row_some, ?_, g.fin⟩
  · unfold V1.crawl
    rw [hgo]
    simp only [Option.map_some']
    congr 1
    unfold V1.fsm
    rw [if_neg (not_not_intro hA), if_neg (not_not_intro h0mem),
      if_neg (not_not_intro hfinals), if_neg (not_not_intro htrans)]
  · intro i row c hrow ti hti hnone
    cases hrc : assocGet row c with
    | none => rfl
    | some j =>
      obtain ⟨ti2, tj, hti2, htj, hf⟩ := g.row_some i row c j hrow hrc
      rw [hti] at hti2
      injection hti2 with h2
      rw [← h2] at hf
      rw [hnone] at hf
      exact Option.noConfusion hf

/-- C5 witness: crawl of the explicit two-superstate system `exFlw`. -/
theorem claim_C5_witness :
    V1.crawl [Symb.sym 'a'] (0 : Nat) exIsFinal exFlw 9 =
      some (Except.ok (⟨[Symb.sym 'a'], (List.range exAcc.lookup.length).map Nat.repr, "0",
        exAcc.finals.map Nat.repr,
        exAcc.map.map fun em => (Nat.repr em.1, em.2.map fun tr => (tr.1, Nat.repr tr.2))⟩ :
          V1.Fsm Char String)) ∧
    exAcc.lookup.get? 0 = some 0 ∧ exAcc.lookup.Nodup := by
  have h := claim_C5 [Symb.sym 'a'] (by decide) (0 : Nat) exIsFinal exFlw 9 exAcc (by decide)
  exact ⟨h.1, h.2.1, h.2.2.1⟩

end CrawlClaim

section V1Claims

variable {α σ : Type} [DecidableEq α] [DecidableEq σ]

theorem V1.follow_ok_of_mem (f : V1.Fsm α σ) (st : Option σ) (c : Symb α)
    (h : c ∈ f.alphabet) : f.follow st c = Except.ok (f.followIn st c) := by
  unfold V1.Fsm.follow
  rw [if_pos h]

theorem V1.follow_ok_of_ae (f : V1.Fsm α σ) (st : Option σ) (c : Symb α)
    (hc : c ∉ f.alphabet) (hae : Symb.anythingElse ∈ f.alphabet) :
    f.follow st c = Except.ok (f.followIn st Symb.anythingElse) := by
  unfold V1.Fsm.follow
  rw [if_neg hc, if_pos hae]

theorem V1.follow_error (f : V1.Fsm α σ) (st : Option σ) (c : Symb α)
    (hc : c ∉ f.alphabet) (hae : Symb.anythingElse ∉ f.alphabet) :
    ∃ e, f.follow st c = Except.error e := by
  unfold V1.Fsm.follow
  rw [if_neg hc, if_neg hae]
  exact ⟨_, rfl⟩

theorem V1.foldlM_ok (f : V1.Fsm α σ) (hae : Symb.anythingElse ∈ f.alphabet) :
    ∀ (input : List (Symb α)) (st : Option σ),
      ∃ r, input.foldlM f.follow st = Except.ok r := by
  intro input
  induction input with
  | nil => intro st; exact ⟨st, rfl⟩
  | cons c rest ih =>
    intro st
    rw [List.foldlM_cons]
    by_cases hc : c ∈ f.alphabet
    · rw [V1.follow_ok_of_mem f st c hc]
      exact ih (f.followIn st c)
    · rw [V1.follow_ok_of_ae f st c hc hae]
      exact ih (f.followIn st Symb.anythingElse)

theorem V1.foldlM_error_iff (f : V1.Fsm α σ) (hae : Symb.anythingElse ∉ f.alphabet) :
    ∀ (input : List (Symb α)) (st : Option σ),
      (∃ e, input.foldlM f.follow st = Except.error e) ↔ ∃ c ∈ input, c ∉ f.alphabet := by
  intro input
  induction input with
  | nil =>
    intro st
    constructor
    · rintro ⟨e, he⟩
      rw [List.foldlM_nil] at he
      exact Except.noConfusion he
    · rintro ⟨c, hc, -⟩
      simp at hc
  | cons c rest ih =>
    intro st
    rw [List.foldlM_cons]
    by_cases hc : c ∈ f.alphabet
    · rw [V1.follow_ok_of_mem f st c hc]
      rw [except_ok_bind]
      rw [ih (f.followIn st c)]
      simp [hc]
    · obtain ⟨e, he⟩ := V1.follow_error f st c hc hae
      rw [he]
      rw [except_error_bind]
      constructor
      · intro _
        exact ⟨c, by simp, hc⟩
      · intro _
        exact ⟨e, rfl⟩

/-- C7: `accepts` raises exactly when some input symbol is neither in the
alphabet nor convertible via a declared wildcard; and when the wildcard is
declared, a symbol outside the alphabet is converted to the wildcard before
the table lookup and the call returns a Boolean without raising. -/
theorem claim_C7 (f : V1.Fsm α σ) (input : List (Symb α)) :
    ((∃ e, f.accepts input = Except.error e) ↔
      (Symb.anythingElse ∉ f.alphabet ∧ ∃ c ∈ input, c ∉ f.alphabet)) ∧
    (Symb.anythingElse ∈ f.alphabet →
      (∀ (st : Option σ) (c : Symb α), c ∉ f.alphabet →
        f.follow st c = Except.ok (f.followIn st Symb.anythingElse)) ∧
      ∃ b, f.accepts input = Except.ok b) := by
  constructor
  · unfold V1.Fsm.accepts
    by_cases hae : Symb.anythingElse ∈ f.alphabet
    · obtain ⟨r, hr⟩ := V1.foldlM_ok f hae input (some f.initial)
      rw [hr]
      simp [hae, Except.map]
    · constructor
      · rintro ⟨e, he⟩
        refine ⟨hae, ?_⟩
        rw [← V1.foldlM_error_iff f hae input (some f.initial)]
        cases hfold : input.foldlM f.follow (some f.initial) with
        | ok r =>
          rw [hfold] at he
          simp [Except.map] at he
        | error e2 => exact ⟨e2, rfl⟩
      · rintro ⟨-, hc⟩
        obtain ⟨e, he⟩ := (V1.foldlM_error_iff f hae input (some f.initial)).2 hc
        rw [he]
        exact ⟨e, rfl⟩
  · intro hae
    refine ⟨fun st c hc => V1.follow_ok_of_ae f st c hc hae, ?_⟩
    unfold V1.Fsm.accepts
    obtain ⟨r, hr⟩ := V1.foldlM_ok f hae input (some f.initial)
    rw [hr]
    exact ⟨f.hasFinalState r, rfl⟩

/-- C7 witness: a machine over alphabet a with no wildcard raises on b,
does not raise on a; with the wildcard added it never raises. -/
theorem claim_C7_witness :
    (∃ e, (⟨[Symb.sym 'a'], ["0"], "0", ["0"], []⟩ : V1.Fsm Char String).accepts
      [Symb.sym 'b'] = Except.error e) ∧
    (∃ b, (⟨[Symb.sym 'a', Symb.anythingElse], ["0"], "0", ["0"], []⟩ :
      V1.Fsm Char String).accepts [Symb.sym 'b'] = Except.ok b) := by
  constructor
  · exact (claim_C7 (⟨[Symb.sym 'a'], ["0"], "0", ["0"], []⟩ : V1.Fsm Char String)
      [Symb.sym 'b']).1.2 ⟨by decide, Symb.sym 'b', by simp, by decide⟩
  · exact ((claim_C7 (⟨[Symb.sym 'a', Symb.anythingElse], ["0"], "0", ["0"], []⟩ :
      V1.Fsm Char String) [Symb.sym 'b']).2 (by decide)).2

/-- C8 counterexample: a transition keyed by the wildcard Symbol whose
target "2" is outside the state set passes construction without an error
(`Object.keys` skips Symbol keys), although the claim as stated requires a
ConstructionError for any out-of-set transition target. -/
theorem claim_C8_counterexample :
    V1.fsm [Symb.anythingElse] (["1"] : List String) "1" []
        [("1", [(Symb.anythingElse, "2")])] =
      Except.ok (⟨[Symb.anythingElse], ["1"], "1", [],
        [("1", [(Symb.anythingElse, "2")])]⟩ : V1.Fsm Char String) ∧
    ¬ (("2" : String) ∈ (["1"] : List String)) := by
  exact ⟨by rfl, by decide⟩

/-- C8 amended: literal construction fails (with a ConstructionError, and
returning no automaton) exactly when the alphabet contains a duplicate, the
initial state is not in the state set, a declared final state is not in the
state set, or a transition target under an ordinary string-keyed symbol is
not in the state set; a transition keyed by the wildcard Symbol is skipped
by the validation. -/
theorem claim_C8 (alphabet : List (Symb α)) (states : List σ) (initial : σ)
    (finals : List σ) (map : List (σ × List (Symb α × σ))) :
    (∃ M, V1.fsm alphabet states initial finals map = Except.ok M) ↔
      (alphabet.Nodup ∧ initial ∈ states ∧ (∀ x ∈ finals, x ∈ states) ∧
       (∀ em ∈ map, ∀ tr ∈ em.2, tr.1 ≠ Symb.anythingElse → tr.2 ∈ states)) := by
  unfold V1.fsm
  by_cases h1 : alphabet.Nodup
  · rw [if_neg (not_not_intro h1)]
    by_cases h2 : initial ∈ states
    · rw [if_neg (not_not_intro h2)]
      by_cases h3 : ∀ x ∈ finals, x ∈ states
      · have h3b : (finals.all fun fynal => decide (fynal ∈ states)) = true := by
          rw [List.all_eq_true]
          intro x hx
          exact decide_eq_true (h3 x hx)
        rw [if_neg (not_not_intro h3b)]
        by_cases h4 : ∀ em ∈ map, ∀ tr ∈ em.2, tr.1 ≠ Symb.anythingElse → tr.2 ∈ states
        · have h4b : (map.all fun e => e.2.all fun tr =>
              decide (tr.1 = Symb.anythingElse) || decide (tr.2 ∈ states)) = true := by
            rw [List.all_eq_true]
            intro em hem
            rw [List.all_eq_true]
            intro tr htr
            rw [Bool.or_eq_true]
            by_cases hta : tr.1 = Symb.anythingElse
            · exact Or.inl (decide_eq_true hta)
            · exact Or.inr (decide_eq_true (h4 em hem tr htr hta))
          rw [if_neg (not_not_intro h4b)]
          exact ⟨fun _ => ⟨h1, h2, h3, h4⟩, fun _ => ⟨_, rfl⟩⟩
        · have h4b : ¬ ((map.all fun e => e.2.all fun tr =>
              decide (tr.1 = Symb.anythingElse) || decide (tr.2 ∈ states)) = true) := by
            intro hall
            apply h4
            intro em hem tr htr hne
            have h5 := List.all_eq_true.1 (List.all_eq_true.1 hall em hem) tr htr
            rw [Bool.or_eq_true] at h5
            rcases h5 with hl | hr
            · exact absurd (of_decide_eq_true hl) hne
            · exact of_decide_eq_true hr
          rw [if_pos h4b]
          constructor
          · intro hex
            exact absurd hex (except_error_ne_ok _)
          · rintro ⟨-, -, -, hd⟩
            exact absurd hd h4
      · have h3b : ¬ ((finals.all fun fynal => decide (fynal ∈ states)) = true) := by
          intro hall
          exact h3 fun x hx => of_decide_eq_true (List.all_eq_true.1 hall x hx)
        rw [if_pos h3b]
        constructor
        · intro hex
          exact absurd hex (except_error_ne_ok _)
        · rintro ⟨-, -, hc, -⟩
          exact absurd hc h3
    · rw [if_pos h2]
      constructor
      · intro hex
        exact absurd hex (except_error_ne_ok _)
      · rintro ⟨-, hb, -, -⟩
        exact absurd hb h2
  · rw [if_pos h1]
    constructor
    · intro hex
      exact absurd hex (except_error_ne_ok _)
    · rintro ⟨ha, -, -, -⟩
      exact absurd ha h1

/-- C8 witness: a valid literal construction succeeds; a duplicate alphabet
symbol makes it fail. -/
theorem claim_C8_witness :
    (∃ M, V1.fsm [Symb.sym 'a'] (["1"] : List String) "1" ["1"]
        [("1", [(Symb.sym 'a', "1")])] = Except.ok M) ∧
    ¬ (∃ M, V1.fsm [Symb.sym 'a', Symb.sym 'a'] (["1"] : List String) "1" ["1"] [] =
        Except.ok M) := by
  constructor
  · exact (claim_C8 _ _ _ _ _).2 ⟨by decide, by decide, by decide, by decide⟩
  · intro hex
    have h := ((claim_C8 _ _ _ _ _).1 hex).1
    simp at h

/-- C9: `multiply(A, 0)` returns `epsilon(A.alphabet)` — the empty-string
machine over the same alphabet as `A`: it accepts the empty sequence,
rejects every non-empty sequence over `A`'s alphabet, and its alphabet
equals `A`'s alphabet.  (`A.alphabet` is duplicate-free for any constructed
automaton; the hypothesis records that.) -/
theorem claim_C9 (x : V1.Fsm α String) (fuel : Nat) (hnd : x.alphabet.Nodup) :
    V1.multiply x 0 fuel =
      some (Except.ok (⟨x.alphabet, ["A"], "A", ["A"], []⟩ : V1.Fsm α String)) ∧
    (⟨x.alphabet, ["A"], "A", ["A"], []⟩ : V1.Fsm α String).alphabet = x.alphabet ∧
    (⟨x.alphabet, ["A"], "A", ["A"], []⟩ : V1.Fsm α String).accepts [] = Except.ok true ∧
    (∀ s : List (Symb α), s ≠ [] → (∀ c ∈ s, c ∈ x.alphabet) →
      (⟨x.alphabet, ["A"], "A", ["A"], []⟩ : V1.Fsm α String).accepts s =
        Except.ok false) := by
  have heps : V1.epsilon x.alphabet =
      Except.ok (⟨x.alphabet, ["A"], "A", ["A"], []⟩ : V1.Fsm α String) := by
    unfold V1.epsilon V1.fsm
    rw [if_neg (not_not_intro hnd)]
    rw [if_neg (not_not_intro (by simp : ("A" : String) ∈ ["A"]))]
    rw [if_neg (not_not_intro (by simp : ((["A"] : List String).all
      fun fynal => decide (fynal ∈ ["A"])) = true))]
    rfl
  refine ⟨?_, rfl, rfl, ?_⟩
  · unfold V1.multiply
    rw [if_pos rfl, heps]
  · intro s hs0 hs
    match s, hs0 with
    | c :: rest, _ =>
      set E := (⟨x.alphabet, ["A"], "A", ["A"], []⟩ : V1.Fsm α String) with hE
      have hstep : ∀ (st : Option String) (c2 : Symb α), c2 ∈ x.alphabet →
          E.follow st c2 = Except.ok none := by
        intro st c2 hc2
        rw [V1.follow_ok_of_mem E st c2 hc2]
        match st with
        | none => rfl
        | some q => rfl
      have hnone : ∀ (rest2 : List (Symb α)), (∀ c2 ∈ rest2, c2 ∈ x.alphabet) →
          rest2.foldlM E.follow (none : Option String) = Except.ok none := by
        intro rest2
        induction rest2 with
        | nil => intro _; rfl
        | cons c2 r2 ih =>
          intro hmem
          rw [List.foldlM_cons, hstep none c2 (hmem c2 (by simp))]
          rw [except_ok_bind]
          exact ih fun c3 h3 => hmem c3 (by simp [h3])
      unfold V1.Fsm.accepts
      rw [List.foldlM_cons, hstep (some E.initial) c (hs c (by simp))]
      rw [except_ok_bind]
      rw [hnone rest fun c3 h3 => hs c3 (by simp [h3])]
      rfl

/-- C9 witness: multiplying a concrete one-state machine by 0. -/
theorem claim_C9_witness :
    V1.multiply (⟨[Symb.sym 'a'], ["0"], "0", ["0"], [("0", [(Symb.sym 'a', "0")])]⟩ :
        V1.Fsm Char String) 0 0 =
      some (Except.ok (⟨[Symb.sym 'a'], ["A"], "A", ["A"], []⟩ : V1.Fsm Char String)) ∧
    (⟨[Symb.sym 'a'], ["A"], "A", ["A"], []⟩ : V1.Fsm Char String).accepts [Symb.sym 'a'] =
      Except.ok false := by
  have h := claim_C9 (⟨[Symb.sym 'a'], ["0"], "0", ["0"],
    [("0", [(Symb.sym 'a', "0")])]⟩ : V1.Fsm Char String) 0 (by decide)
  exact ⟨h.1, h.2.2.2 [Symb.sym 'a'] (by simp) (by decide)⟩

end V1Claims

/-! ### The strings generator (C6): frontier evolution -/

section GenTheory

variable {α σ : Type} [DecidableEq α] [DecidableEq σ]

/-- One iteration of the scanning loop, as an equation on the frontier. -/
theorem V1.bfs_succ (f : V1.Fsm α σ) (live : List σ) (n : Nat) :
    V1.bfs f live (n + 1) =
      if h : n < (V1.bfs f live n).length then
        V1.bfs f live n ++ V1.expandEntry f live ((V1.bfs f live n).get ⟨n, h⟩)
      else V1.bfs f live n := rfl

/-- The frontier only ever grows at the end. -/
theorem V1.bfs_mono (f : V1.Fsm α σ) (live : List σ) (k : Nat) :
    ∀ n, k ≤ n → ∃ d, V1.bfs f live n = V1.bfs f live k ++ d := by
  intro n
  induction n with
  | zero => intro h; exact ⟨[], by simp [Nat.le_zero.mp h]⟩
  | succ n ih =>
    intro h
    rcases Nat.lt_or_ge k (n + 1) with hlt | hge
    · obtain ⟨d, hd⟩ := ih (Nat.lt_succ_iff.mp hlt)
      rw [V1.bfs_succ]
      by_cases hc : n < (V1.bfs f live n).length
      · rw [dif_pos hc]
        generalize V1.expandEntry f live ((V1.bfs f live n).get ⟨n, hc⟩) = X
        exact ⟨d ++ X, by rw [hd, List.append_assoc]⟩
      · rw [dif_neg hc]; exact ⟨d, hd⟩
    · have : k = n + 1 := Nat.le_antisymm h hge
      exact ⟨[], by simp [this]⟩

/-- Once the cursor has passed the end of the frontier, nothing changes. -/
theorem V1.bfs_stab (f : V1.Fsm α σ) (live : List σ) (m : Nat)
    (hm : (V1.bfs f live m).length ≤ m) :
    ∀ n, m ≤ n → V1.bfs f live n = V1.bfs f live m := by
  intro n
  induction n with
  | zero => intro h; rw [Nat.le_zero.mp h]
  | succ n ih =>
    intro h
    rcases Nat.lt_or_ge m (n + 1) with hlt | hge
    · have hn := ih (Nat.lt_succ_iff.mp hlt)
      rw [V1.bfs_succ, hn]
      rw [dif_neg (by omega)]
    · rw [Nat.le_antisymm h hge]

/-- An already present frontier entry never changes. -/
theorem V1.bfs_get_stable (f : V1.Fsm α σ) (live : List σ) {k n j : Nat}
    (hkn : k ≤ n) {e : List (Symb α) × σ} (hj : (V1.bfs f live k).get? j = some e) :
    (V1.bfs f live n).get? j = some e := by
  obtain ⟨d, hd⟩ := V1.bfs_mono f live k n hkn
  rw [hd]
  exact get?_append_left hj

/-- Folding list-appends of optional elements is a filterMap. -/
theorem foldl_append_toList {β γ : Type} (g : β → Option γ) :
    ∀ (cs : List β) (acc : List γ),
      cs.foldl (fun a c => a ++ (g c).toList) acc = acc ++ cs.filterMap g := by
  intro cs
  induction cs with
  | nil => intro acc; simp
  | cons c rest ihc =>
    intro acc
    rw [List.foldl_cons, ihc, List.filterMap_cons]
    rcases hx : g c with _ | x
    · simp
    · simp

/-- `expandEntry` is the filterMap of the per-symbol partial map over the
alphabet. -/
theorem V1.expandEntry_eq (f : V1.Fsm α σ) (live : List σ) (entry : List (Symb α) × σ) :
    V1.expandEntry f live entry = f.alphabet.filterMap (V1.expandF f live entry) := by
  rw [V1.expandEntry]
  have h1 : f.alphabet.foldl
      (fun acc symbol =>
        match f.followIn (some entry.2) symbol with
        | some nstate =>
          if nstate ∈ live then acc ++ [(entry.1 ++ [symbol], nstate)] else acc
        | none => acc) [] =
      f.alphabet.foldl (fun a c => a ++ ((V1.expandF f live entry) c).toList) [] := by
    refine List.foldl_ext _ _ [] ?_
    intro a b hb
    rcases hfol : f.followIn (some entry.2) b with _ | q
    · simp [V1.expandF, hfol]
    · by_cases hq : q ∈ live
      · simp [V1.expandF, hfol, hq]
      · simp [V1.expandF, hfol, hq]
  rw [h1, foldl_append_toList]
  simp

/-- Membership characterization of the enqueued entries. -/
theorem V1.mem_expandEntry {f : V1.Fsm α σ} {live : List σ}
    {entry x : List (Symb α) × σ} :
    x ∈ V1.expandEntry f live entry ↔
      ∃ c ∈ f.alphabet, f.followIn (some entry.2) c = some x.2 ∧ x.2 ∈ live ∧
        x.1 = entry.1 ++ [c] := by
  rw [V1.expandEntry_eq]
  simp only [List.mem_filterMap]
  constructor
  · rintro ⟨c, hc, hx⟩
    rcases hfol : f.followIn (some entry.2) c with _ | q
    · simp only [V1.expandF, hfol] at hx; cases hx
    · simp only [V1.expandF, hfol] at hx
      by_cases hq : q ∈ live
      · rw [if_pos hq] at hx
        injection hx with hx
        subst hx
        exact ⟨c, hc, by simpa using hfol, by simpa using hq, rfl⟩
      · rw [if_neg hq] at hx; cases hx
  · rintro ⟨c, hc, hfol, hlive, hx1⟩
    refine ⟨c, hc, ?_⟩
    simp only [V1.expandF, hfol, if_pos hlive]
    rw [← hx1, Prod.mk.eta]

/-- The iteration count at which level `d + 1` starts processing. -/
theorem V1.levelStart_succ (f : V1.Fsm α σ) (live : List σ) (d : Nat) :
    V1.levelStart f live (d + 1) =
      V1.levelStart f live d + (V1.level f live d).length := by
  simp [V1.levelStart, V1.concatLevels, List.length_append]

/-- While level `d` is being processed, the frontier is the levels up to
`d + 1` plus the expansions of the already processed part of level `d`. -/
theorem V1.bfs_level_aux (f : V1.Fsm α σ) (live : List σ) (d : Nat)
    (hbase : V1.bfs f live (V1.levelStart f live d) = V1.concatLevels f live (d + 1)) :
    ∀ j, j ≤ (V1.level f live d).length →
      V1.bfs f live (V1.levelStart f live d + j) =
        V1.concatLevels f live (d + 1) ++
          ((V1.level f live d).take j).flatMap (V1.expandEntry f live) := by
  intro j
  induction j with
  | zero => intro _; simpa using hbase
  | succ j ih =>
    intro hj
    have hj' : j < (V1.level f live d).length := hj
    have hprev := ih (Nat.le_of_lt hj')
    have hlen1 : (V1.concatLevels f live (d + 1)).length =
        V1.levelStart f live d + (V1.level f live d).length := by
      show V1.levelStart f live (d + 1) = _
      exact V1.levelStart_succ f live d
    have hlt : V1.levelStart f live d + j <
        (V1.bfs f live (V1.levelStart f live d + j)).length := by
      rw [hprev, List.length_append]
      omega
    have hget : (V1.bfs f live (V1.levelStart f live d + j)).get?
        (V1.levelStart f live d + j) = (V1.level f live d).get? j := by
      rw [hprev]
      rw [List.get?_append (by omega)]
      show (V1.concatLevels f live d ++ V1.level f live d).get? _ = _
      rw [List.get?_append_right (by
        show (V1.concatLevels f live d).length ≤ _
        have : (V1.concatLevels f live d).length = V1.levelStart f live d := rfl
        omega)]
      congr 1
      have : (V1.concatLevels f live d).length = V1.levelStart f live d := rfl
      omega
    have h2 := List.get?_eq_get hj'
    have he : (V1.bfs f live (V1.levelStart f live d + j)).get
        ⟨V1.levelStart f live d + j, hlt⟩ = (V1.level f live d).get ⟨j, hj'⟩ := by
      have h1 := List.get?_eq_get hlt
      rw [hget, h2] at h1
      injection h1 with h1
      exact h1.symm
    rw [show V1.levelStart f live d + (j + 1) = (V1.levelStart f live d + j) + 1 by omega]
    rw [V1.bfs_succ, dif_pos hlt, he, hprev, List.append_assoc, List.take_succ]
    congr 1
    rw [List.flatMap_append]
    congr 1
    have h2i : (V1.level f live d)[j]? = some ((V1.level f live d).get ⟨j, hj'⟩) := by
      rw [← List.get?_eq_getElem?]
      exact h2
    rw [h2i]
    simp

/-- At the start of each level the frontier is exactly the levels so far. -/
theorem V1.bfs_level_base (f : V1.Fsm α σ) (live : List σ) :
    ∀ d, V1.bfs f live (V1.levelStart f live d) = V1.concatLevels f live (d + 1) := by
  intro d
  induction d with
  | zero =>
    have h0 : V1.levelStart f live 0 = 0 := rfl
    rw [h0]
    simp [V1.bfs, V1.concatLevels, V1.level]
  | succ d ih =>
    have h := V1.bfs_level_aux f live d ih (V1.level f live d).length le_rfl
    rw [List.take_length] at h
    rw [V1.levelStart_succ, h]
    rfl

/-- The frontier during the processing of level `d`. -/
theorem V1.bfs_level (f : V1.Fsm α σ) (live : List σ) (d j : Nat)
    (hj : j ≤ (V1.level f live d).length) :
    V1.bfs f live (V1.levelStart f live d + j) =
      V1.concatLevels f live (d + 1) ++
        ((V1.level f live d).take j).flatMap (V1.expandEntry f live) :=
  V1.bfs_level_aux f live d (V1.bfs_level_base f live d) j hj

/-- Every iteration count either falls inside the processing of some level,
or the frontier has already stabilized at such a point. -/
theorem V1.bfs_cases (f : V1.Fsm α σ) (live : List σ) :
    ∀ n, (∃ d j, j ≤ (V1.level f live d).length ∧ n = V1.levelStart f live d + j) ∨
      (∃ m, (∃ d j, j ≤ (V1.level f live d).length ∧ m = V1.levelStart f live d + j) ∧
        m ≤ n ∧ V1.bfs f live n = V1.bfs f live m ∧ (V1.bfs f live m).length ≤ m) := by
  intro n
  induction n with
  | zero =>
    refine Or.inl ⟨0, 0, Nat.zero_le _, ?_⟩
    rfl
  | succ n ih =>
    rcases ih with ⟨d, j, hj, hn⟩ | ⟨m, hmdec, hmn, heq, hlen⟩
    · rcases Nat.lt_or_ge j (V1.level f live d).length with hlt | hge
      · exact Or.inl ⟨d, j + 1, hlt, by omega⟩
      · have hj' : j = (V1.level f live d).length := Nat.le_antisymm hj hge
        have hnl : n = V1.levelStart f live (d + 1) := by
          rw [hn, hj', ← V1.levelStart_succ]
        rcases Nat.lt_or_ge 0 (V1.level f live (d + 1)).length with h1 | h0
        · refine Or.inl ⟨d + 1, 1, h1, by omega⟩
        · have hempty : (V1.level f live (d + 1)).length = 0 := Nat.le_zero.mp h0
          have hb := V1.bfs_level_base f live (d + 1)
          have hcl : (V1.concatLevels f live (d + 1 + 1)).length =
              V1.levelStart f live (d + 1) := by
            show V1.levelStart f live (d + 1 + 1) = _
            rw [V1.levelStart_succ]
            omega
          have hlen2 : (V1.bfs f live n).length ≤ n := by
            rw [hnl, hb]
            omega
          refine Or.inr ⟨n, ⟨d + 1, 0, Nat.zero_le _, by omega⟩, Nat.le_succ n, ?_, hlen2⟩
          rw [V1.bfs_succ, dif_neg (by omega)]
    · refine Or.inr ⟨m, hmdec, by omega, ?_, hlen⟩
      rw [V1.bfs_succ]
      have hnot : ¬ n < (V1.bfs f live n).length := by rw [heq]; omega
      rw [dif_neg hnot, heq]

/-- A bind of a take is a prefix of the bind. -/
theorem bind_take_append {β γ : Type} (g : β → List γ) (l : List β) (j : Nat) :
    ∃ rest, l.flatMap g = (l.take j).flatMap g ++ rest := by
  refine ⟨(l.drop j).flatMap g, ?_⟩
  conv_lhs => rw [← List.take_append_drop j l]
  rw [List.flatMap_append]

/-- Every frontier is a prefix of a large enough level concatenation. -/
theorem V1.bfs_prefix_concat (f : V1.Fsm α σ) (live : List σ) (n : Nat) :
    ∃ d rest, V1.concatLevels f live d = V1.bfs f live n ++ rest := by
  have main : ∀ m, (∃ d j, j ≤ (V1.level f live d).length ∧
      m = V1.levelStart f live d + j) →
      ∃ d rest, V1.concatLevels f live d = V1.bfs f live m ++ rest := by
    rintro m ⟨d, j, hj, rfl⟩
    rw [V1.bfs_level f live d j hj]
    obtain ⟨rest, hrest⟩ := bind_take_append (V1.expandEntry f live) (V1.level f live d) j
    refine ⟨d + 2, rest, ?_⟩
    have hlvl : V1.level f live (d + 1) =
        ((V1.level f live d).take j).flatMap (V1.expandEntry f live) ++ rest := by
      show (V1.level f live d).flatMap (V1.expandEntry f live) = _
      exact hrest
    show V1.concatLevels f live (d + 1) ++ V1.level f live (d + 1) = _
    rw [hlvl, ← List.append_assoc]
  rcases V1.bfs_cases f live n with hc | ⟨m, hmdec, _, heq, _⟩
  · exact main n hc
  · obtain ⟨d, rest, h⟩ := main m hmdec
    exact ⟨d, rest, by rw [heq]; exact h⟩

/-- Every entry of level `d` carries a string of length `d`. -/
theorem V1.level_length (f : V1.Fsm α σ) (live : List σ) :
    ∀ d, ∀ e ∈ V1.level f live d, e.1.length = d := by
  intro d
  induction d with
  | zero => intro e he; simp [V1.level] at he; simp [he]
  | succ d ih =>
    intro e he
    simp only [V1.level, List.mem_flatMap] at he
    obtain ⟨p, hp, hpe⟩ := he
    obtain ⟨c, _, _, _, h1⟩ := V1.mem_expandEntry.mp hpe
    rw [h1]
    simp [ih p hp]

/-- A run on one extra symbol is one more table lookup. -/
theorem V1.runP_append_singleton (f : V1.Fsm α σ) (st : Option σ) (u : List (Symb α))
    (c : Symb α) : V1.runP f st (u ++ [c]) = f.followIn (V1.runP f st u) c := by
  simp [V1.runP, List.foldl_append]

/-- What a successful per-symbol expansion step means. -/
theorem V1.expandF_some {f : V1.Fsm α σ} {live : List σ} {p x : List (Symb α) × σ}
    {c : Symb α} (h : V1.expandF f live p c = some x) :
    f.followIn (some p.2) c = some x.2 ∧ x.2 ∈ live ∧ x.1 = p.1 ++ [c] := by
  rcases hfol : f.followIn (some p.2) c with _ | q
  · simp only [V1.expandF, hfol] at h
    cases h
  · simp only [V1.expandF, hfol] at h
    by_cases hq : q ∈ live
    · rw [if_pos hq] at h
      injection h with h
      subst h
      exact ⟨rfl, hq, rfl⟩
    · rw [if_neg hq] at h
      cases h

/-- Invariant of the explored entries: symbols come from the alphabet, the
stored state is the run of the stored string, and every non-root entry's
state was checked live before being enqueued. -/
theorem V1.level_sound (f : V1.Fsm α σ) (live : List σ) :
    ∀ d, ∀ e ∈ V1.level f live d,
      (∀ c ∈ e.1, c ∈ f.alphabet) ∧ V1.runP f (some f.initial) e.1 = some e.2 ∧
        (d = 0 ∨ e.2 ∈ live) := by
  intro d
  induction d with
  | zero =>
    intro e he
    simp only [V1.level, List.mem_singleton] at he
    subst he
    exact ⟨by simp, by simp [V1.runP], Or.inl rfl⟩
  | succ d ih =>
    intro e he
    simp only [V1.level, List.mem_flatMap] at he
    obtain ⟨p, hp, hpe⟩ := he
    obtain ⟨ha, hrun, _⟩ := ih p hp
    obtain ⟨c, hc, hfol, hlive, h1⟩ := V1.mem_expandEntry.mp hpe
    refine ⟨?_, ?_, Or.inr hlive⟩
    · intro c2 hc2
      rw [h1] at hc2
      rcases List.mem_append.mp hc2 with h | h
      · exact ha c2 h
      · simp only [List.mem_singleton] at h
        rw [h]
        exact hc
    · rw [h1, V1.runP_append_singleton, hrun]
      exact hfol

/-- In a duplicate-free list, the first index of the `i`-th element is `i`. -/
theorem firstIdx_of_nodup {T : Type} [DecidableEq T] {l : List T} (hnd : l.Nodup) :
    ∀ {i : Nat} {t : T}, l.get? i = some t → firstIdx l t = some i := by
  induction l with
  | nil => intro i t h; simp at h
  | cons x xs ih =>
    intro i t h
    match i with
    | 0 =>
      simp only [List.get?_cons_zero] at h
      injection h with h
      subst h
      simp [firstIdx]
    | i + 1 =>
      simp only [List.get?_cons_succ] at h
      have hx : ¬ x = t := by
        intro he
        subst he
        exact (List.nodup_cons.mp hnd).1 (List.get?_mem h)
      rw [firstIdx, if_neg hx, ih (List.nodup_cons.mp hnd).2 h]
      rfl

/-- A duplicate-free alphabet is sorted by its own enumeration order. -/
theorem pairwise_symLt {α : Type} [DecidableEq α] (alphabet : List (Symb α))
    (hnd : alphabet.Nodup) : alphabet.Pairwise (symLt alphabet) := by
  rw [List.pairwise_iff_get]
  intro i j hij
  exact ⟨i, j, firstIdx_of_nodup hnd (List.get?_eq_get i.isLt),
    firstIdx_of_nodup hnd (List.get?_eq_get j.isLt), hij⟩

/-- Lexicographic precedence is preserved by appending anything. -/
theorem lexLt_append {α : Type} [DecidableEq α] {alphabet : List (Symb α)}
    {u v : List (Symb α)} (h : lexLt alphabet u v) (s t : List (Symb α)) :
    lexLt alphabet (u ++ s) (v ++ t) := by
  induction h with
  | head hsym => exact lexLt.head hsym
  | tail _ ih => exact lexLt.tail ih

/-- Extending a common stem by two ordered symbols orders the strings. -/
theorem lexLt_append_last {α : Type} [DecidableEq α] {alphabet : List (Symb α)}
    {c1 c2 : Symb α} (h : symLt alphabet c1 c2) :
    ∀ u : List (Symb α), lexLt alphabet (u ++ [c1]) (u ++ [c2]) := by
  intro u
  induction u with
  | nil => exact lexLt.head h
  | cons x xs ih => exact lexLt.tail ih

/-- A filterMap of a sorted list is sorted, when the map is monotone. -/
theorem pairwise_filterMap_of {β γ : Type} {R : γ → γ → Prop} {S : β → β → Prop}
    (g : β → Option γ) {l : List β} (hl : l.Pairwise S)
    (h : ∀ a b, S a b → ∀ x, g a = some x → ∀ y, g b = some y → R x y) :
    (l.filterMap g).Pairwise R := by
  induction l with
  | nil => simp
  | cons a rest ih =>
    rw [List.filterMap_cons]
    have hl' := List.pairwise_cons.mp hl
    rcases hx : g a with _ | x
    · exact ih hl'.2
    · refine List.pairwise_cons.mpr ⟨?_, ih hl'.2⟩
      intro y hy
      obtain ⟨b, hb, hgb⟩ := List.mem_filterMap.mp hy
      exact h a b (hl'.1 b hb) x hx y hgb

/-- A flatMap of a sorted list of sorted blocks is sorted, when earlier
blocks are wholly below later blocks. -/
theorem pairwise_flatMap_of {β γ : Type} {R : γ → γ → Prop} {S : β → β → Prop}
    (g : β → List γ) {l : List β} (hl : l.Pairwise S)
    (hin : ∀ x ∈ l, (g x).Pairwise R)
    (hcross : ∀ a b, S a b → ∀ x ∈ g a, ∀ y ∈ g b, R x y) :
    (l.flatMap g).Pairwise R := by
  induction l with
  | nil => simp
  | cons a rest ih =>
    rw [List.flatMap_cons, List.pairwise_append]
    have hl' := List.pairwise_cons.mp hl
    refine ⟨hin a (by simp), ih hl'.2 (fun x hx => hin x (by simp [hx])), ?_⟩
    intro x hx y hy
    obtain ⟨b, hb, hgb⟩ := List.mem_flatMap.mp hy
    exact hcross a b (hl'.1 b hb) x hx y hgb

/-- Each level is sorted by the tie order: lexicographic precedence in
alphabet enumeration order. -/
theorem V1.level_sorted (f : V1.Fsm α σ) (live : List σ) (hnd : f.alphabet.Nodup) :
    ∀ d, (V1.level f live d).Pairwise (fun e1 e2 => lexLt f.alphabet e1.1 e2.1) := by
  intro d
  induction d with
  | zero => simp [V1.level]
  | succ d ih =>
    show ((V1.level f live d).flatMap (V1.expandEntry f live)).Pairwise _
    refine pairwise_flatMap_of _ ih ?_ ?_
    · intro p _
      rw [V1.expandEntry_eq]
      refine pairwise_filterMap_of _ (pairwise_symLt f.alphabet hnd) ?_
      intro a b hab x hx y hy
      obtain ⟨_, _, hx1⟩ := V1.expandF_some hx
      obtain ⟨_, _, hy1⟩ := V1.expandF_some hy
      rw [hx1, hy1]
      exact lexLt_append_last hab p.1
    · intro p1 p2 h12 x hx y hy
      obtain ⟨c1, _, _, _, hx1⟩ := V1.mem_expandEntry.mp hx
      obtain ⟨c2, _, _, _, hy1⟩ := V1.mem_expandEntry.mp hy
      rw [hx1, hy1]
      exact lexLt_append h12 [c1] [c2]

/-- Membership in a level concatenation. -/
theorem V1.mem_concatLevels {f : V1.Fsm α σ} {live : List σ}
    {e : List (Symb α) × σ} :
    ∀ {d : Nat}, e ∈ V1.concatLevels f live d ↔ ∃ d2, d2 < d ∧ e ∈ V1.level f live d2 := by
  intro d
  induction d with
  | zero => simp [V1.concatLevels]
  | succ d ih =>
    show e ∈ V1.concatLevels f live d ++ V1.level f live d ↔ _
    rw [List.mem_append, ih]
    constructor
    · rintro (⟨d2, hd2, hm⟩ | hm)
      · exact ⟨d2, by omega, hm⟩
      · exact ⟨d, by omega, hm⟩
    · rintro ⟨d2, hd2, hm⟩
      rcases Nat.lt_or_ge d2 d with h | h
      · exact Or.inl ⟨d2, h, hm⟩
      · have hd : d2 = d := by omega
        subst hd
        exact Or.inr hm

/-- The level concatenations are sorted in strict shortlex order. -/
theorem V1.concat_sorted (f : V1.Fsm α σ) (live : List σ) (hnd : f.alphabet.Nodup) :
    ∀ d, (V1.concatLevels f live d).Pairwise
      (fun e1 e2 => shortlexLt f.alphabet e1.1 e2.1) := by
  intro d
  induction d with
  | zero => simp [V1.concatLevels]
  | succ d ih =>
    show (V1.concatLevels f live d ++ V1.level f live d).Pairwise _
    rw [List.pairwise_append]
    refine ⟨ih, ?_, ?_⟩
    · have h := V1.level_sorted f live hnd d
      refine List.Pairwise.imp_of_mem ?_ h
      intro e1 e2 h1 h2 h12
      right
      rw [V1.level_length f live d e1 h1, V1.level_length f live d e2 h2]
      exact ⟨rfl, h12⟩
    · intro e1 h1 e2 h2
      obtain ⟨d2, hd2, hm⟩ := V1.mem_concatLevels.mp h1
      left
      rw [V1.level_length f live d2 e1 hm, V1.level_length f live d e2 h2]
      exact hd2

/-- A lookup after an overwrite. -/
theorem assocGet_assocSet {κ β : Type} [DecidableEq κ] :
    ∀ (l : List (κ × β)) (k : κ) (v : β) (k2 : κ),
      assocGet (assocSet l k v) k2 = if k = k2 then some v else assocGet l k2 := by
  intro l
  induction l with
  | nil =>
    intro k v k2
    by_cases h : k = k2
    · simp [assocSet, assocGet, h]
    · simp [assocSet, assocGet, h]
  | cons e rest ih =>
    intro k v k2
    rw [assocSet]
    by_cases he : e.1 = k
    · rw [if_pos he]
      by_cases h2 : k = k2
      · simp [assocGet, h2]
      · rw [if_neg h2]
        show assocGet ((k, v) :: rest) k2 = assocGet (e :: rest) k2
        rw [assocGet, assocGet, if_neg h2, if_neg (by rw [he]; exact h2)]
    · rw [if_neg he]
      show assocGet (e :: assocSet rest k v) k2 = _
      rw [assocGet, ih]
      by_cases h2 : k = k2
      · rw [if_pos h2, if_neg (by rw [← h2]; exact he), if_pos h2]
      · rw [if_neg h2, if_neg h2, assocGet]

/-- A successful lookup comes from a binding in the list. -/
theorem assocGet_mem_of {κ β : Type} [DecidableEq κ] :
    ∀ {l : List (κ × β)} {k : κ} {v : β}, assocGet l k = some v → (k, v) ∈ l := by
  intro l
  induction l with
  | nil => intro k v h; simp [assocGet] at h
  | cons e rest ih =>
    intro k v h
    rw [assocGet] at h
    by_cases he : e.1 = k
    · rw [if_pos he] at h
      injection h with h
      have he2 : e = (k, v) := Prod.ext he h
      rw [← he2]
      exact List.mem_cons_self e rest
    · rw [if_neg he] at h
      exact List.mem_cons_of_mem _ (ih h)

/-- Membership in a reverse-map bucket after one edge insertion. -/
theorem V1.mem_rmAdd {rm : List (Option σ × List σ)} {k0 key : Option σ} {s0 p : σ} :
    p ∈ (assocGet (V1.rmAdd rm k0 s0) key).getD [] ↔
      p ∈ (assocGet rm key).getD [] ∨ (key = k0 ∧ p = s0) := by
  rw [V1.rmAdd]
  rcases hk0 : assocGet rm k0 with _ | inner
  · rcases hk : assocGet rm key with _ | bucket
    · rw [assocGet_append_none hk]
      by_cases he : k0 = key
      · subst he
        simp [assocGet]
      · rw [assocGet, if_neg (by simpa using he)]
        simp [assocGet, Ne.symm he]
    · rw [assocGet_append_some hk]
      simp only [Option.getD_some]
      constructor
      · exact Or.inl
      · intro h
        rcases h with h | hpair
        · exact h
        · rw [hpair.1, hk0] at hk
          cases hk
  · rw [assocGet_assocSet]
    by_cases he : k0 = key
    · have hkey : assocGet rm key = some inner := by rw [← he]; exact hk0
      rw [if_pos he, hkey]
      simp only [Option.getD_some]
      by_cases hs : s0 ∈ inner
      · rw [if_pos hs]
        constructor
        · exact Or.inl
        · intro h
          rcases h with h | hpair
          · exact h
          · rw [hpair.2]
            exact hs
      · rw [if_neg hs]
        rw [List.mem_append, List.mem_singleton]
        constructor
        · rintro (h | h)
          · exact Or.inl h
          · exact Or.inr ⟨he.symm, h⟩
        · intro h
          rcases h with h | hpair
          · exact Or.inl h
          · exact Or.inr hpair.2
    · rw [if_neg he]
      constructor
      · exact Or.inl
      · intro h
        rcases h with h | hpair
        · exact h
        · exact absurd hpair.1.symm he

/-- What the reverse adjacency map of `_getLiveStates` records: `p` sits in
the bucket of `key` exactly when `p` is a state and some alphabet symbol
takes `p` to `key`. -/
theorem V1.mem_reverseMap {f : V1.Fsm α σ} {key : Option σ} {p : σ} :
    p ∈ (assocGet (V1.reverseMap f) key).getD [] ↔
      p ∈ f.states ∧ ∃ c ∈ f.alphabet, f.followIn (some p) c = key := by
  have inner : ∀ (state : σ) (cs : List (Symb α)) (rm : List (Option σ × List σ)),
      p ∈ (assocGet (cs.foldl
          (fun rm symbol => V1.rmAdd rm (f.followIn (some state) symbol) state) rm)
        key).getD [] ↔
        p ∈ (assocGet rm key).getD [] ∨
          (p = state ∧ ∃ c ∈ cs, f.followIn (some state) c = key) := by
    intro state cs
    induction cs with
    | nil => intro rm; simp
    | cons c rest ihc =>
      intro rm
      rw [List.foldl_cons, ihc, V1.mem_rmAdd]
      constructor
      · rintro ((h | ⟨hk, hp⟩) | ⟨hp, c2, hc2, hfol⟩)
        · exact Or.inl h
        · exact Or.inr ⟨hp, c, by simp, hk.symm⟩
        · exact Or.inr ⟨hp, c2, by simp [hc2], hfol⟩
      · rintro (h | ⟨hp, c2, hc2, hfol⟩)
        · exact Or.inl (Or.inl h)
        · rcases List.mem_cons.mp hc2 with rfl | hc2
          · exact Or.inl (Or.inr ⟨hfol.symm, hp⟩)
          · exact Or.inr ⟨hp, c2, hc2, hfol⟩
  have outer : ∀ (ss : List σ) (rm : List (Option σ × List σ)),
      p ∈ (assocGet (ss.foldl
          (fun rm state => f.alphabet.foldl
            (fun rm symbol => V1.rmAdd rm (f.followIn (some state) symbol) state) rm) rm)
        key).getD [] ↔
        p ∈ (assocGet rm key).getD [] ∨
          (p ∈ ss ∧ ∃ c ∈ f.alphabet, f.followIn (some p) c = key) := by
    intro ss
    induction ss with
    | nil => intro rm; simp
    | cons s rest ihs =>
      intro rm
      rw [List.foldl_cons, ihs, inner]
      constructor
      · rintro ((h | ⟨rfl, hc⟩) | ⟨hp, hc⟩)
        · exact Or.inl h
        · exact Or.inr ⟨by simp, hc⟩
        · exact Or.inr ⟨by simp [hp], hc⟩
      · rintro (h | ⟨hp, hc⟩)
        · exact Or.inl (Or.inl h)
        · rcases List.mem_cons.mp hp with rfl | hp
          · exact Or.inl (Or.inr ⟨rfl, hc⟩)
          · exact Or.inr ⟨hp, hc⟩
  rw [V1.reverseMap]
  rw [outer f.states []]
  simp [assocGet]

/-- One unfolding of the recursive scan. -/
theorem V1.scanLive_succ (rm : List (Option σ × List σ)) (fuel : Nat) (acc : List σ)
    (q : σ) :
    V1.scanLive rm (fuel + 1) acc q =
      ((assocGet rm (some q)).getD []).foldl
        (fun a p => if p ∈ a then a else V1.scanLive rm fuel a p)
        (if q ∈ acc then acc else acc ++ [q]) := rfl

/-- The scan only adds marks. -/
theorem V1.scanLive_mono (rm : List (Option σ × List σ)) :
    ∀ fuel acc q x, x ∈ acc → x ∈ V1.scanLive rm fuel acc q := by
  intro fuel
  induction fuel with
  | zero => intro acc q x hx; exact hx
  | succ fuel ih =>
    intro acc q x hx
    rw [V1.scanLive_succ]
    have h0 : x ∈ (if q ∈ acc then acc else acc ++ [q]) := by
      by_cases hq : q ∈ acc
      · rw [if_pos hq]; exact hx
      · rw [if_neg hq]; exact List.mem_append_left _ hx
    generalize (assocGet rm (some q)).getD [] = ps
    revert h0
    generalize (if q ∈ acc then acc else acc ++ [q]) = a0
    intro h0
    induction ps generalizing a0 with
    | nil => exact h0
    | cons p rest ihp =>
      rw [List.foldl_cons]
      refine ihp _ ?_
      show x ∈ (if p ∈ a0 then a0 else V1.scanLive rm fuel a0 p)
      by_cases hp : p ∈ a0
      · rw [if_pos hp]; exact h0
      · rw [if_neg hp]; exact ih a0 p x h0

/-- The marking fold only adds marks. -/
theorem V1.scanFold_mono (rm : List (Option σ × List σ)) (fuel : Nat) :
    ∀ (ps a0 : List σ) (x : σ), x ∈ a0 →
      x ∈ ps.foldl (fun a p => if p ∈ a then a else V1.scanLive rm fuel a p) a0 := by
  intro ps
  induction ps with
  | nil => intro a0 x h; exact h
  | cons p rest ih =>
    intro a0 x h
    rw [List.foldl_cons]
    refine ih _ x ?_
    show x ∈ (if p ∈ a0 then a0 else V1.scanLive rm fuel a0 p)
    by_cases hp : p ∈ a0
    · rw [if_pos hp]; exact h
    · rw [if_neg hp]; exact V1.scanLive_mono rm fuel a0 p x h

/-- The scanned state is marked (any positive fuel). -/
theorem V1.scanLive_self (rm : List (Option σ × List σ)) (fuel : Nat) (acc : List σ)
    (q : σ) : q ∈ V1.scanLive rm (fuel + 1) acc q := by
  rw [V1.scanLive_succ]
  refine V1.scanFold_mono rm fuel _ _ q ?_
  by_cases hq : q ∈ acc
  · rw [if_pos hq]; exact hq
  · rw [if_neg hq]; exact List.mem_append_right _ (by simp)

/-- A strictly finer counting predicate counts strictly fewer elements, as
soon as one listed element separates the two. -/
theorem countP_lt_of {T : Type} (S : List T) (pr q : T → Bool)
    (himp : ∀ x ∈ S, q x = true → pr x = true) (y : T) (hy : y ∈ S)
    (hpy : pr y = true) (hqy : q y = false) : S.countP q < S.countP pr := by
  induction S with
  | nil => simp at hy
  | cons z rest ih =>
    rw [List.countP_cons, List.countP_cons]
    rcases List.mem_cons.mp hy with rfl | hy2
    · have h1 : (if pr y = true then 1 else 0) = 1 := if_pos hpy
      have h2 : (if q y = true then 1 else 0) = 0 := if_neg (by simp [hqy])
      rw [h1, h2]
      have hmono : rest.countP q ≤ rest.countP pr :=
        List.countP_mono_left (fun x hx h => himp x (by simp [hx]) h)
      omega
    · have hrec := ih (fun x hx h => himp x (by simp [hx]) h) hy2
      have hz : (if q z = true then 1 else 0) ≤ (if pr z = true then 1 else 0) := by
        by_cases hqz : q z = true
        · rw [if_pos hqz, if_pos (himp z (by simp) hqz)]
        · rw [if_neg hqz]
          omega
      omega

/-- Full correctness of the recursive scan under sufficient fuel: the
scanned state is marked, marks stay inside `acc ∪ {q} ∪ S`, every fresh
mark satisfies the backward-closed property `G`, and the fresh marks are
closed under the recorded predecessor edges. -/
theorem V1.scanLive_spec (rm : List (Option σ × List σ)) (S : List σ)
    (hU : ∀ (key : Option σ) (p : σ), p ∈ (assocGet rm key).getD [] → p ∈ S)
    (G : σ → Prop)
    (hG : ∀ x p, G x → p ∈ (assocGet rm (some x)).getD [] → G p) :
    ∀ fuel acc q,
      S.countP (fun x => ! decide (x ∈ (if q ∈ acc then acc else acc ++ [q]))) < fuel →
      G q →
      (q ∈ V1.scanLive rm fuel acc q) ∧
      (∀ x ∈ V1.scanLive rm fuel acc q, x ∈ acc ∨ x = q ∨ x ∈ S) ∧
      (∀ x ∈ V1.scanLive rm fuel acc q, x ∉ acc → G x) ∧
      (∀ x ∈ V1.scanLive rm fuel acc q, x ∉ acc →
        ∀ p ∈ (assocGet rm (some x)).getD [], p ∈ V1.scanLive rm fuel acc q) := by
  intro fuel
  induction fuel with
  | zero => intro acc q hmiss _; omega
  | succ fuel ih =>
    intro acc q hmiss hGq
    rw [V1.scanLive_succ]
    have hsub0 : ∀ x ∈ acc, x ∈ (if q ∈ acc then acc else acc ++ [q]) := by
      intro x hx
      by_cases hq : q ∈ acc
      · rw [if_pos hq]; exact hx
      · rw [if_neg hq]; exact List.mem_append_left _ hx
    have hmem0 : ∀ x ∈ (if q ∈ acc then acc else acc ++ [q]), x ∈ acc ∨ x = q := by
      intro x hx
      by_cases hq : q ∈ acc
      · rw [if_pos hq] at hx; exact Or.inl hx
      · rw [if_neg hq] at hx
        rcases List.mem_append.mp hx with h | h
        · exact Or.inl h
        · exact Or.inr (by simpa using h)
    have hqin : q ∈ (if q ∈ acc then acc else acc ++ [q]) := by
      by_cases hq : q ∈ acc
      · rw [if_pos hq]; exact hq
      · rw [if_neg hq]; exact List.mem_append_right _ (by simp)
    have fold : ∀ (ps : List σ), (∀ p ∈ ps, p ∈ S) → (∀ p ∈ ps, G p) →
        ∀ (a0 : List σ),
          (∀ x ∈ (if q ∈ acc then acc else acc ++ [q]), x ∈ a0) →
          (∀ x ∈ a0, x ∈ acc ∨ x = q ∨ x ∈ S) →
          (∀ x ∈ a0, x ∉ acc → G x) →
          (∀ x ∈ a0, x ∉ acc → x ≠ q →
            ∀ p2 ∈ (assocGet rm (some x)).getD [], p2 ∈ a0) →
          (∀ x ∈ a0,
            x ∈ (ps.foldl (fun a p => if p ∈ a then a else V1.scanLive rm fuel a p) a0)) ∧
          (∀ p ∈ ps,
            p ∈ (ps.foldl (fun a p => if p ∈ a then a else V1.scanLive rm fuel a p) a0)) ∧
          (∀ x ∈ (ps.foldl (fun a p => if p ∈ a then a else V1.scanLive rm fuel a p) a0),
            x ∈ acc ∨ x = q ∨ x ∈ S) ∧
          (∀ x ∈ (ps.foldl (fun a p => if p ∈ a then a else V1.scanLive rm fuel a p) a0),
            x ∉ acc → G x) ∧
          (∀ x ∈ (ps.foldl (fun a p => if p ∈ a then a else V1.scanLive rm fuel a p) a0),
            x ∉ acc → x ≠ q →
            ∀ p2 ∈ (assocGet rm (some x)).getD [],
              p2 ∈ (ps.foldl (fun a p => if p ∈ a then a else V1.scanLive rm fuel a p) a0)) := by
      intro ps
      induction ps with
      | nil =>
        intro _ _ a0 hsub hmm hGa hcl
        exact ⟨fun x hx => hx, by simp, hmm, hGa, hcl⟩
      | cons p rest ihp =>
        intro hps hpsG a0 hsub hmm hGa hcl
        simp only [List.foldl_cons]
        by_cases hp : p ∈ a0
        · rw [if_pos hp]
          obtain ⟨R1, R2, R3, R4, R5⟩ := ihp (fun x hx => hps x (by simp [hx]))
            (fun x hx => hpsG x (by simp [hx])) a0 hsub hmm hGa hcl
          refine ⟨R1, ?_, R3, R4, R5⟩
          intro p2 hp2
          rcases List.mem_cons.mp hp2 with rfl | hp2
          · exact R1 p2 hp
          · exact R2 p2 hp2
        · rw [if_neg hp]
          have hpS : p ∈ S := hps p (by simp)
          have hGp : G p := hpsG p (by simp)
          have hpn2 : p ∉ (if q ∈ acc then acc else acc ++ [q]) :=
            fun hc => hp (hsub p hc)
          have hmiss2 : S.countP
              (fun x => ! decide (x ∈ (if p ∈ a0 then a0 else a0 ++ [p]))) < fuel := by
            rw [if_neg hp]
            have hlt : S.countP (fun x => ! decide (x ∈ a0 ++ [p])) <
                S.countP (fun x =>
                  ! decide (x ∈ (if q ∈ acc then acc else acc ++ [q]))) := by
              refine countP_lt_of S _ _ ?_ p hpS ?_ ?_
              · intro x hx h
                simp only [Bool.not_eq_true', decide_eq_false_iff_not] at h ⊢
                intro hc
                exact h (List.mem_append_left _ (hsub x hc))
              · simp only [Bool.not_eq_true', decide_eq_false_iff_not]
                exact hpn2
              · simp only [Bool.not_eq_false', decide_eq_true_eq]
                exact List.mem_append_right _ (by simp)
            omega
          obtain ⟨s1, s2, s3, s4⟩ := ih a0 p hmiss2 hGp
          obtain ⟨R1, R2, R3, R4, R5⟩ := ihp (fun x hx => hps x (by simp [hx]))
            (fun x hx => hpsG x (by simp [hx])) (V1.scanLive rm fuel a0 p)
            (fun x hx => V1.scanLive_mono rm fuel a0 p x (hsub x hx))
            (by
              intro x hx
              rcases s2 x hx with h | h | h
              · exact hmm x h
              · exact Or.inr (Or.inr (by rw [h]; exact hpS))
              · exact Or.inr (Or.inr h))
            (by
              intro x hx hxacc
              by_cases hxa : x ∈ a0
              · exact hGa x hxa hxacc
              · exact s3 x hx hxa)
            (by
              intro x hx hxacc hxq p2 hp2
              by_cases hxa : x ∈ a0
              · exact V1.scanLive_mono rm fuel a0 p p2 (hcl x hxa hxacc hxq p2 hp2)
              · exact s4 x hx hxa p2 hp2)
          refine ⟨?_, ?_, R3, R4, R5⟩
          · intro x hx
            exact R1 x (V1.scanLive_mono rm fuel a0 p x hx)
          · intro p2 hp2
            rcases List.mem_cons.mp hp2 with rfl | hp2
            · exact R1 p2 s1
            · exact R2 p2 hp2
    have hmm0 : ∀ x ∈ (if q ∈ acc then acc else acc ++ [q]),
        x ∈ acc ∨ x = q ∨ x ∈ S := by
      intro x hx
      rcases hmem0 x hx with h | h
      · exact Or.inl h
      · exact Or.inr (Or.inl h)
    have hGa0 : ∀ x ∈ (if q ∈ acc then acc else acc ++ [q]), x ∉ acc → G x := by
      intro x hx hxacc
      rcases hmem0 x hx with h | h
      · exact absurd h hxacc
      · rw [h]; exact hGq
    have hcl0 : ∀ x ∈ (if q ∈ acc then acc else acc ++ [q]), x ∉ acc → x ≠ q →
        ∀ p2 ∈ (assocGet rm (some x)).getD [],
          p2 ∈ (if q ∈ acc then acc else acc ++ [q]) := by
      intro x hx hxacc hxq
      rcases hmem0 x hx with h | h
      · exact absurd h hxacc
      · exact absurd h hxq
    obtain ⟨R1, R2, R3, R4, R5⟩ := fold ((assocGet rm (some q)).getD [])
      (fun p hp => hU (some q) p hp) (fun p hp => hG q p hGq hp)
      (if q ∈ acc then acc else acc ++ [q]) (fun x hx => hx) hmm0 hGa0 hcl0
    refine ⟨R1 q hqin, R3, R4, ?_⟩
    intro x hx hxacc p2 hp2
    by_cases hxq : x = q
    · subst hxq
      exact R2 p2 hp2
    · exact R5 x hx hxacc hxq p2 hp2

/-- The oblivion sentinel absorbs the pure run. -/
theorem V1.runP_none (f : V1.Fsm α σ) : ∀ w : List (Symb α), V1.runP f none w = none := by
  intro w
  induction w with
  | nil => rfl
  | cons c rest ih => exact ih

/-- Unfolding the pure run over a first symbol. -/
theorem V1.runP_cons (f : V1.Fsm α σ) (st : Option σ) (c : Symb α) (w : List (Symb α)) :
    V1.runP f st (c :: w) = V1.runP f (f.followIn st c) w := rfl

/-- Splitting the pure run over a concatenation. -/
theorem V1.runP_append (f : V1.Fsm α σ) (st : Option σ) (u w : List (Symb α)) :
    V1.runP f st (u ++ w) = V1.runP f (V1.runP f st u) w := by
  simp [V1.runP, List.foldl_append]

/-- With valid transition targets, following from a state lands on a
state. -/
theorem V1.followIn_mem {f : V1.Fsm α σ}
    (htgt : ∀ em ∈ f.map, ∀ tr ∈ em.2, tr.2 ∈ f.states)
    {st : σ} {c : Symb α} {t : σ} (h : f.followIn (some st) c = some t) :
    t ∈ f.states := by
  rcases hrow : assocGet f.map st with _ | row
  · simp only [V1.Fsm.followIn, hrow] at h
    cases h
  · simp only [V1.Fsm.followIn, hrow] at h
    exact htgt (st, row) (assocGet_mem_of hrow) (c, t) (assocGet_mem_of h)

/-- A state that reaches a final state carries a witnessing word over the
alphabet. -/
theorem V1.reaches_word {f : V1.Fsm α σ} {x : σ} (h : V1.Reaches f x) :
    ∃ w t, (∀ c ∈ w, c ∈ f.alphabet) ∧ V1.runP f (some x) w = some t ∧ t ∈ f.finals := by
  induction h with
  | fin hq => exact ⟨[], _, by simp, rfl, hq⟩
  | @step q q2 c hc hfol hrest ih =>
    obtain ⟨w, t, hw, hrun, ht⟩ := ih
    refine ⟨c :: w, t, ?_, ?_, ht⟩
    · intro c2 hc2
      rcases List.mem_cons.mp hc2 with rfl | hc2
      · exact hc
      · exact hw c2 hc2
    · rw [V1.runP_cons, hfol]
      exact hrun

/-- Correctness of `_getLiveStates`: finals are live, every live state
forward-reaches a final state, and the live set is closed under the
recorded predecessor edges. -/
theorem V1.getLiveStates_spec (f : V1.Fsm α σ)
    (hfin : ∀ x ∈ f.finals, x ∈ f.states) :
    (∀ q ∈ f.finals, q ∈ V1.getLiveStates f) ∧
    (∀ x ∈ V1.getLiveStates f, V1.Reaches f x) ∧
    (∀ x ∈ V1.getLiveStates f,
      ∀ p ∈ (assocGet (V1.reverseMap f) (some x)).getD [], p ∈ V1.getLiveStates f) := by
  have hU : ∀ (key : Option σ) (p : σ),
      p ∈ (assocGet (V1.reverseMap f) key).getD [] → p ∈ f.states :=
    fun key p hp => (V1.mem_reverseMap.mp hp).1
  have hG : ∀ x p, V1.Reaches f x →
      p ∈ (assocGet (V1.reverseMap f) (some x)).getD [] → V1.Reaches f p := by
    intro x p hx hp
    obtain ⟨hps, c, hc, hfol⟩ := V1.mem_reverseMap.mp hp
    exact V1.Reaches.step hc hfol hx
  have main : ∀ (fs : List σ), (∀ q ∈ fs, q ∈ f.finals) → ∀ (acc : List σ),
      (∀ x ∈ acc, V1.Reaches f x) →
      (∀ x ∈ acc, ∀ p ∈ (assocGet (V1.reverseMap f) (some x)).getD [], p ∈ acc) →
      (∀ x ∈ acc, x ∈ fs.foldl
        (fun acc q => V1.scanLive (V1.reverseMap f) (f.states.length + 1) acc q) acc) ∧
      (∀ q ∈ fs, q ∈ fs.foldl
        (fun acc q => V1.scanLive (V1.reverseMap f) (f.states.length + 1) acc q) acc) ∧
      (∀ x ∈ fs.foldl
        (fun acc q => V1.scanLive (V1.reverseMap f) (f.states.length + 1) acc q) acc,
        V1.Reaches f x) ∧
      (∀ x ∈ fs.foldl
        (fun acc q => V1.scanLive (V1.reverseMap f) (f.states.length + 1) acc q) acc,
        ∀ p ∈ (assocGet (V1.reverseMap f) (some x)).getD [],
          p ∈ fs.foldl
            (fun acc q => V1.scanLive (V1.reverseMap f) (f.states.length + 1) acc q) acc) := by
    intro fs
    induction fs with
    | nil =>
      intro _ acc hacc hcl
      exact ⟨fun x hx => hx, by simp, hacc, hcl⟩
    | cons q fs ihf =>
      intro hfs acc hacc hcl
      simp only [List.foldl_cons]
      have hmiss : f.states.countP
          (fun x => ! decide (x ∈ (if q ∈ acc then acc else acc ++ [q]))) <
          f.states.length + 1 :=
        Nat.lt_succ_of_le (List.countP_le_length _)
      obtain ⟨s1, _, s3, s4⟩ := V1.scanLive_spec (V1.reverseMap f) f.states hU
        (V1.Reaches f) hG (f.states.length + 1) acc q hmiss
        (V1.Reaches.fin (hfs q (by simp)))
      have hacc' : ∀ x ∈ V1.scanLive (V1.reverseMap f) (f.states.length + 1) acc q,
          V1.Reaches f x := by
        intro x hx
        by_cases hxa : x ∈ acc
        · exact hacc x hxa
        · exact s3 x hx hxa
      have hcl' : ∀ x ∈ V1.scanLive (V1.reverseMap f) (f.states.length + 1) acc q,
          ∀ p ∈ (assocGet (V1.reverseMap f) (some x)).getD [],
            p ∈ V1.scanLive (V1.reverseMap f) (f.states.length + 1) acc q := by
        intro x hx p hp
        by_cases hxa : x ∈ acc
        · exact V1.scanLive_mono _ _ acc q p (hcl x hxa p hp)
        · exact s4 x hx hxa p hp
      obtain ⟨R1, R2, R3, R4⟩ := ihf (fun q2 h2 => hfs q2 (by simp [h2])) _ hacc' hcl'
      refine ⟨?_, ?_, R3, R4⟩
      · intro x hx
        exact R1 x (V1.scanLive_mono _ _ acc q x hx)
      · intro q2 hq2
        rcases List.mem_cons.mp hq2 with rfl | hq2
        · exact R1 q2 s1
        · exact R2 q2 hq2
  obtain ⟨_, R2, R3, R4⟩ := main f.finals (fun q hq => hq) [] (by simp) (by simp)
  exact ⟨R2, R3, R4⟩

/-- Completeness of the liveness scan: any state from which a word over the
alphabet reaches a final state is marked live. -/
theorem V1.live_complete (f : V1.Fsm α σ)
    (hfin : ∀ x ∈ f.finals, x ∈ f.states)
    (htgt : ∀ em ∈ f.map, ∀ tr ∈ em.2, tr.2 ∈ f.states) :
    ∀ (w : List (Symb α)) (q : σ), q ∈ f.states → (∀ c ∈ w, c ∈ f.alphabet) →
      ∀ t, V1.runP f (some q) w = some t → t ∈ f.finals →
      q ∈ V1.getLiveStates f := by
  intro w
  induction w with
  | nil =>
    intro q hq _ t hrun ht
    have hqt : q = t := by
      have : some q = some t := hrun
      injection this
    rw [hqt]
    exact (V1.getLiveStates_spec f hfin).1 t ht
  | cons c w ih =>
    intro q hq hw t hrun ht
    rw [V1.runP_cons] at hrun
    rcases hfol : f.followIn (some q) c with _ | q2
    · rw [hfol, V1.runP_none] at hrun
      cases hrun
    · rw [hfol] at hrun
      have hq2s : q2 ∈ f.states := V1.followIn_mem htgt hfol
      have hlive2 := ih q2 hq2s (fun c2 h2 => hw c2 (by simp [h2])) t hrun ht
      have hpred : q ∈ (assocGet (V1.reverseMap f) (some q2)).getD [] :=
        V1.mem_reverseMap.mpr ⟨hq, c, hw c (by simp), hfol⟩
      exact (V1.getLiveStates_spec f hfin).2.2 q2 hlive2 q hpred

/-- If the cursor is still inside the frontier at `m`, it was inside at
every earlier iteration. -/
theorem V1.entry_exists (f : V1.Fsm α σ) (live : List σ) {m j : Nat}
    (hm : m < (V1.bfs f live m).length) (hj : j ≤ m) :
    j < (V1.bfs f live j).length := by
  by_contra hc
  push_neg at hc
  have hstab := V1.bfs_stab f live j hc m hj
  rw [hstab] at hm
  omega

/-- One unfolding of `next`'s scanning loop. -/
theorem V1.nextGo_succ (f : V1.Fsm α σ) (live : List σ) (fuel : Nat)
    (frontier : List (List (Symb α) × σ)) (i : Nat) :
    V1.nextGo f live (fuel + 1) frontier i =
      if h : i < frontier.length then
        if f.hasFinalState (some ((frontier.get ⟨i, h⟩)).2) then
          some (some (frontier.get ⟨i, h⟩).1,
            frontier ++ V1.expandEntry f live (frontier.get ⟨i, h⟩), i + 1)
        else V1.nextGo f live fuel
          (frontier ++ V1.expandEntry f live (frontier.get ⟨i, h⟩)) (i + 1)
      else some (none, frontier, i) := rfl

/-- Characterization of one `next` call started on the canonical frontier:
it either runs out of fuel, yields the first final entry at or after the
cursor, or reports done after scanning only non-final entries. -/
theorem V1.nextGo_char (f : V1.Fsm α σ) (live : List σ) :
    ∀ (fuel k : Nat),
      (V1.nextGo f live fuel (V1.bfs f live k) k = none ∧
        (∀ j, k ≤ j → j < k + fuel → ∃ e2, (V1.bfs f live j).get? j = some e2 ∧
          f.hasFinalState (some e2.2) = false)) ∨
      (∃ m e, k ≤ m ∧
        (∀ j, k ≤ j → j < m → ∃ e2, (V1.bfs f live j).get? j = some e2 ∧
          f.hasFinalState (some e2.2) = false) ∧
        (V1.bfs f live m).get? m = some e ∧ f.hasFinalState (some e.2) = true ∧
        V1.nextGo f live fuel (V1.bfs f live k) k =
          some (some e.1, V1.bfs f live (m + 1), m + 1)) ∨
      (∃ m, k ≤ m ∧
        (∀ j, k ≤ j → j < m → ∃ e2, (V1.bfs f live j).get? j = some e2 ∧
          f.hasFinalState (some e2.2) = false) ∧
        (V1.bfs f live m).length ≤ m ∧
        V1.nextGo f live fuel (V1.bfs f live k) k = some (none, V1.bfs f live m, m)) := by
  intro fuel
  induction fuel with
  | zero => intro k; exact Or.inl ⟨rfl, by intro j h1 h2; omega⟩
  | succ fuel ih =>
    intro k
    by_cases hk : k < (V1.bfs f live k).length
    · have he : (V1.bfs f live k).get? k = some ((V1.bfs f live k).get ⟨k, hk⟩) :=
        List.get?_eq_get hk
      have hstep : V1.bfs f live (k + 1) =
          V1.bfs f live k ++ V1.expandEntry f live ((V1.bfs f live k).get ⟨k, hk⟩) := by
        rw [V1.bfs_succ, dif_pos hk]
      by_cases hfin : f.hasFinalState (some ((V1.bfs f live k).get ⟨k, hk⟩).2) = true
      · refine Or.inr (Or.inl ⟨k, (V1.bfs f live k).get ⟨k, hk⟩, le_rfl, ?_, he, hfin, ?_⟩)
        · intro j h1 h2; omega
        · rw [V1.nextGo_succ, dif_pos hk, if_pos hfin, ← hstep]
      · have hrec : V1.nextGo f live (fuel + 1) (V1.bfs f live k) k =
            V1.nextGo f live fuel (V1.bfs f live (k + 1)) (k + 1) := by
          rw [V1.nextGo_succ, dif_pos hk, if_neg hfin, ← hstep]
        have hfin0 : f.hasFinalState (some ((V1.bfs f live k).get ⟨k, hk⟩).2) = false := by
          simpa using hfin
        rcases ih (k + 1) with ⟨h, hall⟩ | h | h
        · refine Or.inl ⟨by rw [hrec]; exact h, ?_⟩
          intro j h1 h2
          rcases Nat.eq_or_lt_of_le h1 with rfl | hlt
          · exact ⟨(V1.bfs f live k).get ⟨k, hk⟩, he, hfin0⟩
          · exact hall j hlt (by omega)
        · obtain ⟨m, e, hm, hprev, hget, hfin2, heq⟩ := h
          refine Or.inr (Or.inl ⟨m, e, by omega, ?_, hget, hfin2, by rw [hrec]; exact heq⟩)
          intro j h1 h2
          rcases Nat.eq_or_lt_of_le h1 with rfl | hlt
          · exact ⟨(V1.bfs f live k).get ⟨k, hk⟩, he, hfin0⟩
          · exact hprev j hlt h2
        · obtain ⟨m, hm, hprev, hlen, heq⟩ := h
          refine Or.inr (Or.inr ⟨m, by omega, ?_, hlen, by rw [hrec]; exact heq⟩)
          intro j h1 h2
          rcases Nat.eq_or_lt_of_le h1 with rfl | hlt
          · exact ⟨(V1.bfs f live k).get ⟨k, hk⟩, he, hfin0⟩
          · exact hprev j hlt h2
    · refine Or.inr (Or.inr ⟨k, le_rfl, ?_, by omega, ?_⟩)
      · intro j h1 h2; omega
      · rw [V1.nextGo_succ, dif_neg hk]

/-- No yields over a stretch of non-final (or absent) entries. -/
theorem V1.bfsYields_nil (f : V1.Fsm α σ) (live : List σ) {k n : Nat}
    (h : ∀ j, k ≤ j → j < n →
      ((V1.bfs f live j).get? j).bind (fun e =>
        if f.hasFinalState (some e.2) then some e.1 else none) = none) :
    V1.bfsYields f live k n = [] := by
  rw [V1.bfsYields, List.filterMap_eq_nil_iff]
  intro m hm
  have hmem := List.mem_range'_1.mp hm
  exact h m hmem.1 (by omega)

/-- Splitting the yield window. -/
theorem V1.bfsYields_split (f : V1.Fsm α σ) (live : List σ) {k m n : Nat}
    (hkm : k ≤ m) (hmn : m ≤ n) :
    V1.bfsYields f live k n = V1.bfsYields f live k m ++ V1.bfsYields f live m n := by
  rw [V1.bfsYields, V1.bfsYields, V1.bfsYields]
  rw [show n - k = (n - m) + (m - k) by omega]
  rw [← List.range'_append]
  rw [show k + 1 * (m - k) = m by omega]
  rw [List.filterMap_append]

/-- A window holding exactly one final entry, at its end, yields exactly
that entry's string. -/
theorem V1.bfsYields_single (f : V1.Fsm α σ) (live : List σ) {k m : Nat}
    {e : List (Symb α) × σ} (hkm : k ≤ m)
    (hprev : ∀ j, k ≤ j → j < m → ∃ e2, (V1.bfs f live j).get? j = some e2 ∧
      f.hasFinalState (some e2.2) = false)
    (hget : (V1.bfs f live m).get? m = some e)
    (hfin : f.hasFinalState (some e.2) = true) :
    V1.bfsYields f live k (m + 1) = [e.1] := by
  rw [V1.bfsYields_split f live hkm (Nat.le_succ m)]
  rw [V1.bfsYields_nil f live (by
    intro j h1 h2
    obtain ⟨e2, hg2, hf2⟩ := hprev j h1 h2
    rw [hg2]
    simp [hf2])]
  rw [List.nil_append, V1.bfsYields]
  rw [show m + 1 - m = 1 by omega]
  rw [List.range'_one]
  rw [List.filterMap_cons]
  rw [hget]
  simp [hfin]

/-- One unfolding of the generator driver. -/
theorem V1.genRun_succ (f : V1.Fsm α σ) (live : List σ) (innerFuel calls : Nat)
    (frontier : List (List (Symb α) × σ)) (i : Nat) :
    V1.genRun f live innerFuel (calls + 1) frontier i =
      match V1.nextGo f live innerFuel frontier i with
      | none => none
      | some (none, _, _) => some ([], true)
      | some (some v, frontier2, i2) =>
        (V1.genRun f live innerFuel calls frontier2 i2).map fun pr => (v :: pr.1, pr.2) :=
  rfl

/-- Characterization of a generator run started on the canonical frontier:
the collected strings are the yields of a window of iterations, and the
done flag is reported only with the frontier exhausted. -/
theorem V1.genRun_char (f : V1.Fsm α σ) (live : List σ) (innerFuel : Nat) :
    ∀ (calls k : Nat) (vs : List (List (Symb α))) (d : Bool),
      V1.genRun f live innerFuel calls (V1.bfs f live k) k = some (vs, d) →
      ∃ n, k ≤ n ∧ vs = V1.bfsYields f live k n ∧
        (d = true → (V1.bfs f live n).length ≤ n) := by
  intro calls
  induction calls with
  | zero =>
    intro k vs d h
    have h2 : some ((([] : List (List (Symb α))), false)) = some ((vs, d)) := h
    injection h2 with h2
    injection h2 with ha hb
    subst ha
    subst hb
    refine ⟨k, le_rfl, ?_, ?_⟩
    · simp [V1.bfsYields]
    · intro hcon
      simp at hcon
  | succ calls ihc =>
    intro k vs d h
    rcases V1.nextGo_char f live innerFuel k with ⟨hr, _⟩ |
      ⟨m, e, hm, hprev, hget, hfin, hr⟩ | ⟨m, hm, hprev, hlen, hr⟩
    · simp only [V1.genRun_succ, hr] at h
      cases h
    · simp only [V1.genRun_succ, hr] at h
      rcases hg : V1.genRun f live innerFuel calls (V1.bfs f live (m + 1)) (m + 1)
        with _ | pr
      · rw [hg] at h
        simp at h
      · rw [hg] at h
        simp only [Option.map_some'] at h
        injection h with h
        injection h with ha hb
        obtain ⟨n, hn, hvs, hd⟩ := ihc (m + 1) pr.1 pr.2 hg
        refine ⟨n, by omega, ?_, ?_⟩
        · rw [← ha, hvs]
          rw [V1.bfsYields_split f live (show k ≤ m + 1 by omega) hn]
          rw [V1.bfsYields_single f live hm hprev hget hfin]
          rfl
        · intro hdt
          exact hd (by rw [hb]; exact hdt)
    · simp only [V1.genRun_succ, hr] at h
      injection h with h
      injection h with ha hb
      refine ⟨m, hm, ?_, fun _ => hlen⟩
      rw [← ha]
      exact (V1.bfsYields_nil f live (fun j h1 h2 => by
        obtain ⟨e2, hg2, hf2⟩ := hprev j h1 h2
        rw [hg2]
        simp [hf2])).symm

/-- Where a yielded string comes from: a final entry under the cursor. -/
theorem V1.mem_bfsYields {f : V1.Fsm α σ} {live : List σ} {k n : Nat}
    {v : List (Symb α)} (h : v ∈ V1.bfsYields f live k n) :
    ∃ m e, k ≤ m ∧ m < n ∧ (V1.bfs f live m).get? m = some e ∧
      f.hasFinalState (some e.2) = true ∧ v = e.1 := by
  rw [V1.bfsYields] at h
  obtain ⟨m, hm, he⟩ := List.mem_filterMap.mp h
  have hr := List.mem_range'_1.mp hm
  rcases hg : (V1.bfs f live m).get? m with _ | e
  · rw [hg] at he
    simp at he
  · rw [hg] at he
    simp only [Option.some_bind] at he
    by_cases hf : f.hasFinalState (some e.2) = true
    · rw [if_pos hf] at he
      injection he with he
      exact ⟨m, e, hr.1, by omega, hg, hf, he.symm⟩
    · rw [if_neg hf] at he
      cases he

/-- Every frontier entry lives in some level. -/
theorem V1.bfs_entry_level {f : V1.Fsm α σ} {live : List σ} {m : Nat}
    {e : List (Symb α) × σ} (h : (V1.bfs f live m).get? m = some e) :
    ∃ d, e ∈ V1.level f live d := by
  have hmem : e ∈ V1.bfs f live m := List.get?_mem h
  obtain ⟨D, rest, hD⟩ := V1.bfs_prefix_concat f live m
  have h2 : e ∈ V1.concatLevels f live D := by
    rw [hD]
    exact List.mem_append_left _ hmem
  obtain ⟨d2, _, hm2⟩ := V1.mem_concatLevels.mp h2
  exact ⟨d2, hm2⟩

/-- On inputs over the alphabet, `accepts` returns (without throwing) the
pure acceptance verdict. -/
theorem V1.accepts_ok_of_alphabet (f : V1.Fsm α σ) (v : List (Symb α))
    (hv : ∀ c ∈ v, c ∈ f.alphabet) :
    f.accepts v = Except.ok (V1.acceptsP f v) := by
  have hfold : ∀ (u : List (Symb α)) (st : Option σ), (∀ c ∈ u, c ∈ f.alphabet) →
      u.foldlM f.follow st = Except.ok (V1.runP f st u) := by
    intro u
    induction u with
    | nil => intro st _; rfl
    | cons c rest ih =>
      intro st hu
      rw [List.foldlM_cons, V1.follow_ok_of_mem f st c (hu c (by simp))]
      rw [except_ok_bind]
      rw [ih (f.followIn st c) (fun c2 h2 => hu c2 (by simp [h2]))]
      rfl
  rw [V1.Fsm.accepts, hfold v (some f.initial) hv]
  rfl

/-- Entries under the cursor at successive iterations are in strict
shortlex order. -/
theorem V1.bfs_sorted_idx (f : V1.Fsm α σ) (live : List σ) (hnd : f.alphabet.Nodup)
    {m1 m2 : Nat} {e1 e2 : List (Symb α) × σ} (h12 : m1 < m2)
    (h1 : (V1.bfs f live m1).get? m1 = some e1)
    (h2 : (V1.bfs f live m2).get? m2 = some e2) :
    shortlexLt f.alphabet e1.1 e2.1 := by
  have h1' : (V1.bfs f live m2).get? m1 = some e1 :=
    V1.bfs_get_stable f live (Nat.le_of_lt h12) h1
  obtain ⟨D, rest, hD⟩ := V1.bfs_prefix_concat f live m2
  have hc1 : (V1.concatLevels f live D).get? m1 = some e1 := by
    rw [hD]
    exact get?_append_left h1'
  have hc2 : (V1.concatLevels f live D).get? m2 = some e2 := by
    rw [hD]
    exact get?_append_left h2
  have hsorted := V1.concat_sorted f live hnd D
  rw [List.pairwise_iff_get] at hsorted
  obtain ⟨hlt1, hget1⟩ := List.get?_eq_some.mp hc1
  obtain ⟨hlt2, hget2⟩ := List.get?_eq_some.mp hc2
  have hres := hsorted ⟨m1, hlt1⟩ ⟨m2, hlt2⟩ h12
  rw [hget1, hget2] at hres
  exact hres

/-- Lists with at most one element are vacuously sorted. -/
theorem pairwise_of_short {γ : Type} {R : γ → γ → Prop} :
    ∀ {l : List γ}, l.length ≤ 1 → l.Pairwise R := by
  intro l h
  match l with
  | [] => exact List.Pairwise.nil
  | [x] => exact List.pairwise_singleton R x
  | x :: y :: rest => simp at h

/-- The yield stream is sorted in strict shortlex order. -/
theorem V1.bfsYields_pairwise (f : V1.Fsm α σ) (live : List σ)
    (hnd : f.alphabet.Nodup) (k : Nat) :
    ∀ n, List.Pairwise (shortlexLt f.alphabet) (V1.bfsYields f live k n) := by
  intro n
  induction n with
  | zero => simp [V1.bfsYields]
  | succ n ih =>
    rcases Nat.lt_or_ge n k with hnk | hkn
    · rw [V1.bfsYields, show n + 1 - k = 0 by omega]
      simp
    · rw [V1.bfsYields_split f live hkn (Nat.le_succ n)]
      rw [List.pairwise_append]
      refine ⟨ih, ?_, ?_⟩
      · refine pairwise_of_short ?_
        have hlen : (V1.bfsYields f live n (n + 1)).length ≤ 1 := by
          rw [V1.bfsYields]
          refine le_trans (List.length_filterMap_le _ _) ?_
          rw [show n + 1 - n = 1 by omega]
          simp
        exact hlen
      · intro y1 h1 y2 h2
        obtain ⟨m1, e1, _, hm1n, hg1, _, hv1⟩ := V1.mem_bfsYields h1
        obtain ⟨m2, e2, hm2a, _, hg2, _, hv2⟩ := V1.mem_bfsYields h2
        rw [hv1, hv2]
        exact V1.bfs_sorted_idx f live hnd (by omega) hg1 hg2

/-- A call that yields consumes one call and continues from the returned
state. -/
theorem V1.genRun_yield_step (f : V1.Fsm α σ) (live : List σ) {F calls : Nat}
    {frontier fr2 : List (List (Symb α) × σ)} {i i2 : Nat} {v : List (Symb α)}
    (h : V1.nextGo f live F frontier i = some (some v, fr2, i2)) :
    V1.genRun f live F (calls + 1) frontier i =
      (V1.genRun f live F calls fr2 i2).map fun pr => (v :: pr.1, pr.2) := by
  simp only [V1.genRun_succ, h]

/-- With enough fuel and exactly as many calls as there are yields in the
window, the generator run succeeds and returns exactly those yields. -/
theorem V1.genRun_reach (f : V1.Fsm α σ) (live : List σ) (m : Nat) :
    ∀ (t k : Nat), m + 1 - k ≤ t →
      V1.genRun f live (m + 2) (V1.bfsYields f live k (m + 1)).length
        (V1.bfs f live k) k = some (V1.bfsYields f live k (m + 1), false) := by
  intro t
  induction t with
  | zero =>
    intro k hk
    have hY : V1.bfsYields f live k (m + 1) = [] := by
      rw [V1.bfsYields, show m + 1 - k = 0 by omega]
      rfl
    rw [hY]
    rfl
  | succ t ih =>
    intro k hk
    rcases hY : V1.bfsYields f live k (m + 1) with _ | ⟨y, ys⟩
    · rfl
    · rw [← hY]
      have hymem : y ∈ V1.bfsYields f live k (m + 1) := by rw [hY]; simp
      obtain ⟨m1, e1, hkm1, hm1n, hget1, hfin1, hy⟩ := V1.mem_bfsYields hymem
      rcases V1.nextGo_char f live (m + 2) k with ⟨hr, hall⟩ |
        ⟨m0, e0, hm0, hprev0, hget0, hfin0, hr⟩ | ⟨m0, hm0, hprev0, hlen0, hr⟩
      · exfalso
        obtain ⟨e2, hg2, hf2⟩ := hall m1 hkm1 (by omega)
        rw [hget1] at hg2
        injection hg2 with hg2
        rw [← hg2, hfin1] at hf2
        cases hf2
      · have hm0le : m0 ≤ m1 := by
          by_contra hcon
          push_neg at hcon
          obtain ⟨e2, hg2, hf2⟩ := hprev0 m1 hkm1 hcon
          rw [hget1] at hg2
          injection hg2 with hg2
          rw [← hg2, hfin1] at hf2
          cases hf2
        have hYsplit : V1.bfsYields f live k (m + 1) =
            e0.1 :: V1.bfsYields f live (m0 + 1) (m + 1) := by
          rw [V1.bfsYields_split f live (show k ≤ m0 + 1 by omega)
            (show m0 + 1 ≤ m + 1 by omega),
            V1.bfsYields_single f live hm0 hprev0 hget0 hfin0]
          rfl
        rw [hYsplit, List.length_cons]
        simp only [V1.genRun_succ, hr]
        rw [ih (m0 + 1) (by omega)]
        rfl
      · exfalso
        rcases Nat.lt_or_ge m1 m0 with hlt | hge
        · obtain ⟨e2, hg2, hf2⟩ := hprev0 m1 hkm1 hlt
          rw [hget1] at hg2
          injection hg2 with hg2
          rw [← hg2, hfin1] at hf2
          cases hf2
        · have hstab := V1.bfs_stab f live m0 hlen0 m1 hge
          obtain ⟨hlt1, _⟩ := List.get?_eq_some.mp hget1
          rw [hstab] at hlt1
          omega

/-- Once the frontier is exhausted at `T`, one more call than the number of
remaining yields drives the generator to done, returning those yields. -/
theorem V1.genRun_done (f : V1.Fsm α σ) (live : List σ) (T : Nat)
    (hT : (V1.bfs f live T).length ≤ T) :
    ∀ (t k : Nat), T - k ≤ t → k ≤ T →
      V1.genRun f live (T + 2) ((V1.bfsYields f live k T).length + 1)
        (V1.bfs f live k) k = some (V1.bfsYields f live k T, true) := by
  intro t
  induction t with
  | zero =>
    intro k hk hkT
    have hkT2 : k = T := by omega
    subst hkT2
    have hY : V1.bfsYields f live k k = [] := by simp [V1.bfsYields]
    rw [hY]
    have hno : V1.nextGo f live (k + 2) (V1.bfs f live k) k =
        some (none, V1.bfs f live k, k) := by
      rw [show k + 2 = (k + 1) + 1 from rfl, V1.nextGo_succ, dif_neg (by omega)]
    simp only [V1.genRun_succ, hno]
  | succ t ih =>
    intro k hk hkT
    rcases V1.nextGo_char f live (T + 2) k with ⟨hr, hall⟩ |
      ⟨m0, e0, hm0, hprev0, hget0, hfin0, hr⟩ | ⟨m0, hm0, hprev0, hlen0, hr⟩
    · exfalso
      obtain ⟨e2, hg2, _⟩ := hall T hkT (by omega)
      obtain ⟨hlt, _⟩ := List.get?_eq_some.mp hg2
      omega
    · have hm0T : m0 < T := by
        by_contra hcon
        push_neg at hcon
        have hstab := V1.bfs_stab f live T hT m0 hcon
        obtain ⟨hlt, _⟩ := List.get?_eq_some.mp hget0
        rw [hstab] at hlt
        omega
      have hYsplit : V1.bfsYields f live k T =
          e0.1 :: V1.bfsYields f live (m0 + 1) T := by
        rw [V1.bfsYields_split f live (show k ≤ m0 + 1 by omega)
          (show m0 + 1 ≤ T by omega),
          V1.bfsYields_single f live hm0 hprev0 hget0 hfin0]
        rfl
      rw [hYsplit, List.length_cons]
      rw [V1.genRun_yield_step f live hr]
      rw [ih (m0 + 1) (by omega) (by omega)]
      rfl
    · have hY : V1.bfsYields f live k T = [] := by
        refine V1.bfsYields_nil f live ?_
        intro j h1 h2
        rcases Nat.lt_or_ge j m0 with hlt | hge
        · obtain ⟨e2, hg2, hf2⟩ := hprev0 j h1 hlt
          rw [hg2]
          simp [hf2]
        · have hstab := V1.bfs_stab f live m0 hlen0 j hge
          rw [hstab, List.get?_eq_none.mpr (by omega)]
          rfl
      rw [hY]
      simp only [V1.genRun_succ, hr]

/-- Every prefix of a word accepted through the alphabet is explored: its
entry appears in the level of its length. -/
theorem V1.accepted_entry (f : V1.Fsm α σ)
    (hfin : ∀ x ∈ f.finals, x ∈ f.states)
    (htgt : ∀ em ∈ f.map, ∀ tr ∈ em.2, tr.2 ∈ f.states) :
    ∀ (u w : List (Symb α)), (∀ c ∈ u ++ w, c ∈ f.alphabet) →
      ∀ t, V1.runP f (some f.initial) (u ++ w) = some t → t ∈ f.finals →
      ∃ qu, V1.runP f (some f.initial) u = some qu ∧
        (u, qu) ∈ V1.level f (V1.getLiveStates f) u.length := by
  intro u
  induction u using List.reverseRecOn with
  | nil =>
    intro w hw t hrun ht
    exact ⟨f.initial, rfl, by simp [V1.level]⟩
  | append_singleton u c ihu =>
    intro w hw t hrun ht
    have hassoc : u ++ (c :: w) = (u ++ [c]) ++ w := by simp
    have hw' : ∀ c2 ∈ u ++ (c :: w), c2 ∈ f.alphabet := by
      intro c2 h2
      refine hw c2 ?_
      rw [← hassoc]
      exact h2
    have hrun' : V1.runP f (some f.initial) (u ++ (c :: w)) = some t := by
      rw [hassoc]
      exact hrun
    obtain ⟨qu, hqu, hlev⟩ := ihu (c :: w) hw' t hrun' ht
    have hsplit : V1.runP f (some f.initial) (u ++ [c]) = f.followIn (some qu) c := by
      rw [V1.runP_append_singleton, hqu]
    rcases hfol : f.followIn (some qu) c with _ | q2
    · exfalso
      have hdead : V1.runP f (some f.initial) ((u ++ [c]) ++ w) = none := by
        rw [V1.runP_append, hsplit, hfol, V1.runP_none]
      rw [hrun] at hdead
      cases hdead
    · have hq2w : V1.runP f (some q2) w = some t := by
        have h2 := hrun
        rw [V1.runP_append, hsplit, hfol] at h2
        exact h2
      have hq2s : q2 ∈ f.states := V1.followIn_mem htgt hfol
      have hq2live : q2 ∈ V1.getLiveStates f :=
        V1.live_complete f hfin htgt w q2 hq2s
          (fun c2 h2 => hw c2 (List.mem_append_right _ h2)) t hq2w ht
      refine ⟨q2, ?_, ?_⟩
      · rw [hsplit, hfol]
      · rw [show (u ++ [c]).length = u.length + 1 by simp]
        show _ ∈ (V1.level f (V1.getLiveStates f) u.length).flatMap
          (V1.expandEntry f (V1.getLiveStates f))
        rw [List.mem_flatMap]
        refine ⟨(u, qu), hlev, ?_⟩
        exact V1.mem_expandEntry.mpr ⟨c, hw c (by simp), hfol, hq2live, rfl⟩

/-- Every level entry eventually sits under the cursor. -/
theorem V1.level_entry_at (f : V1.Fsm α σ) (live : List σ) {D : Nat}
    {e : List (Symb α) × σ} (h : e ∈ V1.level f live D) :
    ∃ m, (V1.bfs f live m).get? m = some e := by
  have hmem : e ∈ V1.concatLevels f live (D + 1) :=
    V1.mem_concatLevels.mpr ⟨D, by omega, h⟩
  obtain ⟨i, hi⟩ := List.mem_iff_get.mp hmem
  refine ⟨i.1, ?_⟩
  have hiN : i.1 < V1.levelStart f live (D + 1) := i.isLt
  have hN := V1.bfs_level_base f live (D + 1)
  have hgN : (V1.bfs f live (V1.levelStart f live (D + 1))).get? i.1 = some e := by
    rw [hN]
    show (V1.concatLevels f live (D + 1) ++ V1.level f live (D + 1)).get? i.1 = some e
    rw [List.get?_append hiN]
    rw [List.get?_eq_get i.isLt, hi]
  rcases Nat.lt_or_ge i.1 (V1.bfs f live i.1).length with hlt | hge
  · have hsome := List.get?_eq_get hlt
    have hst := V1.bfs_get_stable f live
      (show i.1 ≤ V1.levelStart f live (D + 1) by omega) hsome
    rw [hgN] at hst
    injection hst with h2
    rw [hsome, ← h2]
  · have hstab := V1.bfs_stab f live i.1 hge (V1.levelStart f live (D + 1)) (by omega)
    rw [hstab] at hgN
    exact hgN

/-- C6: for a well-formed automaton of the part_001 revision (duplicate-free
alphabet, finals and transition targets drawn from the state set), the
`strings()` generator yields exactly the accepted strings over the declared
alphabet, in strictly increasing shortlex order (so lengths are
non-decreasing across successive yields and ties follow alphabet
enumeration order); only successors leading to live states are enqueued;
whenever the accepted language is finite (length-bounded) the iterator
eventually returns done; and in particular `epsilon([]).strings()` yields
exactly the empty string and then done, while `nothing(['a']).strings()` is
done immediately with no values. -/
theorem claim_C6 {α σ : Type} [DecidableEq α] [DecidableEq σ] (f : V1.Fsm α σ)
    (hnd : f.alphabet.Nodup)
    (hfin : ∀ x ∈ f.finals, x ∈ f.states)
    (htgt : ∀ em ∈ f.map, ∀ tr ∈ em.2, tr.2 ∈ f.states) :
    (∀ innerFuel calls vs d, V1.strings f innerFuel calls = some (vs, d) →
      (∀ v ∈ vs, (∀ c ∈ v, c ∈ f.alphabet) ∧ f.accepts v = Except.ok true) ∧
      List.Pairwise (shortlexLt f.alphabet) vs) ∧
    (∀ (live : List σ) (entry e2 : List (Symb α) × σ),
      e2 ∈ V1.expandEntry f live entry → e2.2 ∈ live) ∧
    (∀ v, (∀ c ∈ v, c ∈ f.alphabet) → f.accepts v = Except.ok true →
      ∃ innerFuel calls vs d, V1.strings f innerFuel calls = some (vs, d) ∧ v ∈ vs) ∧
    (∀ N, (∀ u, (∀ c ∈ u, c ∈ f.alphabet) → f.accepts u = Except.ok true →
        u.length ≤ N) →
      ∃ innerFuel calls vs, V1.strings f innerFuel calls = some (vs, true)) ∧
    (V1.epsilon ([] : List (Symb Char))).map (fun E => V1.strings E 2 2) =
      Except.ok (some ([[]], true)) ∧
    (V1.nothing [Symb.sym 'a']).map (fun E => V1.strings E 2 1) =
      Except.ok (some ([], true)) := by
  refine ⟨?_, ?_, ?_, ?_, by rfl, by rfl⟩
  · intro innerFuel calls vs d h
    have h0 : V1.genRun f (V1.getLiveStates f) innerFuel calls
        (V1.bfs f (V1.getLiveStates f) 0) 0 = some (vs, d) := h
    obtain ⟨n, _, hvs, _⟩ := V1.genRun_char f (V1.getLiveStates f) innerFuel calls
      0 vs d h0
    subst hvs
    constructor
    · intro v hv
      obtain ⟨m, e, _, _, hget, hfinE, hveq⟩ := V1.mem_bfsYields hv
      obtain ⟨dl, hdl⟩ := V1.bfs_entry_level hget
      obtain ⟨hsym, hrun, _⟩ := V1.level_sound f (V1.getLiveStates f) dl e hdl
      subst hveq
      refine ⟨hsym, ?_⟩
      rw [V1.accepts_ok_of_alphabet f e.1 hsym]
      congr 1
      rw [V1.acceptsP, hrun]
      exact hfinE
    · exact V1.bfsYields_pairwise f (V1.getLiveStates f) hnd 0 n
  · intro live entry e2 h2
    obtain ⟨c, hc, hfol, hlive, h1⟩ := V1.mem_expandEntry.mp h2
    exact hlive
  · intro v hv hacc
    have haccP : V1.acceptsP f v = true := by
      rw [V1.accepts_ok_of_alphabet f v hv] at hacc
      injection hacc
    rcases hrunv : V1.runP f (some f.initial) v with _ | t
    · rw [V1.acceptsP, hrunv] at haccP
      simp [V1.Fsm.hasFinalState] at haccP
    · have ht : t ∈ f.finals := by
        rw [V1.acceptsP, hrunv] at haccP
        simpa [V1.Fsm.hasFinalState] using haccP
      obtain ⟨qv, hqv, hlev⟩ := V1.accepted_entry f hfin htgt v [] (by simpa using hv)
        t (by simpa using hrunv) ht
      have hqvt : qv = t := by
        rw [hrunv] at hqv
        injection hqv with h2
        exact h2.symm
      obtain ⟨m, hgetm⟩ := V1.level_entry_at f (V1.getLiveStates f) hlev
      have hfinal : f.hasFinalState (some ((v, qv)).2) = true := by
        show f.hasFinalState (some qv) = true
        rw [hqvt]
        simp [V1.Fsm.hasFinalState, ht]
      have hvmem : v ∈ V1.bfsYields f (V1.getLiveStates f) 0 (m + 1) := by
        rw [V1.bfsYields]
        refine List.mem_filterMap.mpr ⟨m, ?_, ?_⟩
        · exact List.mem_range'_1.mpr ⟨by omega, by omega⟩
        · rw [hgetm]
          simp [hfinal]
      have hrunOK := V1.genRun_reach f (V1.getLiveStates f) m (m + 1) 0 (by omega)
      exact ⟨m + 2, (V1.bfsYields f (V1.getLiveStates f) 0 (m + 1)).length,
        V1.bfsYields f (V1.getLiveStates f) 0 (m + 1), false, hrunOK, hvmem⟩
  · intro N hN
    have h1 : V1.level f (V1.getLiveStates f) (N + 1) = [] := by
      by_contra hne
      obtain ⟨e, he⟩ := List.exists_mem_of_ne_nil _ hne
      obtain ⟨hsym, hrun, hlive⟩ := V1.level_sound f (V1.getLiveStates f) (N + 1) e he
      have hlive2 : e.2 ∈ V1.getLiveStates f := by
        rcases hlive with h | h
        · exact absurd h (by omega)
        · exact h
      have hreach := (V1.getLiveStates_spec f hfin).2.1 e.2 hlive2
      obtain ⟨w, t, hw, hrw, htf⟩ := V1.reaches_word hreach
      have hsyms : ∀ c ∈ e.1 ++ w, c ∈ f.alphabet := by
        intro c hc
        rcases List.mem_append.mp hc with h | h
        · exact hsym c h
        · exact hw c h
      have haccept : f.accepts (e.1 ++ w) = Except.ok true := by
        rw [V1.accepts_ok_of_alphabet f _ hsyms]
        congr 1
        rw [V1.acceptsP, V1.runP_append, hrun, hrw]
        simp [V1.Fsm.hasFinalState, htf]
      have hlen := hN (e.1 ++ w) hsyms haccept
      have hlene : e.1.length = N + 1 :=
        V1.level_length f (V1.getLiveStates f) (N + 1) e he
      rw [List.length_append] at hlen
      omega
    have hlevN : ∀ d, V1.level f (V1.getLiveStates f) (N + 1 + d) = [] := by
      intro d
      induction d with
      | zero => exact h1
      | succ d ihd =>
        show (V1.level f (V1.getLiveStates f) (N + 1 + d)).flatMap
          (V1.expandEntry f (V1.getLiveStates f)) = []
        rw [ihd]
        rfl
    have hT : (V1.bfs f (V1.getLiveStates f)
        (V1.levelStart f (V1.getLiveStates f) (N + 2))).length ≤
        V1.levelStart f (V1.getLiveStates f) (N + 2) := by
      rw [V1.bfs_level_base f (V1.getLiveStates f) (N + 2)]
      have h2 : (V1.concatLevels f (V1.getLiveStates f) (N + 2 + 1)).length =
          V1.levelStart f (V1.getLiveStates f) (N + 2) +
            (V1.level f (V1.getLiveStates f) (N + 2)).length := by
        show V1.levelStart f (V1.getLiveStates f) (N + 2 + 1) = _
        rw [V1.levelStart_succ]
      rw [h2]
      have h3 := hlevN 1
      rw [show N + 2 = N + 1 + 1 by omega, h3]
      simp
    have hdone := V1.genRun_done f (V1.getLiveStates f) _ hT
      (V1.levelStart f (V1.getLiveStates f) (N + 2)) 0 (by omega) (by omega)
    exact ⟨_, _, _, hdone⟩

/-- C6 witness: the one-state final automaton over the empty alphabet has a
length-bounded language, so the generator reaches done on it; and the
concrete `nothing(['a'])` generator is done immediately. -/
theorem claim_C6_witness :
    (∃ innerFuel calls vs, V1.strings
      ((⟨[], ["A"], "A", ["A"], []⟩ : V1.Fsm Char String)) innerFuel calls =
        some (vs, true)) ∧
    (V1.nothing [Symb.sym 'a']).map (fun E => V1.strings E 2 1) =
      Except.ok (some ([], true)) := by
  have h := claim_C6 ((⟨[], ["A"], "A", ["A"], []⟩ : V1.Fsm Char String))
    (by decide) (by decide) (by decide)
  refine ⟨?_, h.2.2.2.2.2⟩
  refine h.2.2.2.1 0 ?_
  intro u hu _
  match u with
  | [] => simp
  | c :: rest => exact absurd (hu c (by simp)) (by simp)

end GenTheory

